import Mathlib

/-!
# A verification model of the Leom reactive core (`src/signal.js`)

This file embeds the reactive dependency-tracking engine of MicroView
(the `signal.js` module: `createSignal`, `createEffect`, `createMemo`,
`createRoot`, `onCleanup`, `scheduleUpdate` and the microtask flush) as a
state-transition system in Lean, and proves the specified properties of
signals, effects, memos, the scheduler queue and disposal.

Modelling conventions:
* Signals and computations are pre-allocated and addressed by natural-number
  ids; the mutable stores (`sigs`, `comps`) are total functions from ids.
* A JS `Set` (subscriber sets, dependency sets, the effect queue) is an
  insertion-ordered duplicate-free list, with `addUnique` as `Set.add`.
* User functions passed to `createEffect`/`createRoot` are straight-line
  command lists (`Cmd`); functions passed to `createMemo` are integer
  expressions (`MExpr`).  A `throwE` command / expression models a raised
  exception; fallible execution returns a success flag.
* `queueMicrotask` is modelled by the `scheduled` counter: scheduling a
  microtask increments it, `flush` (the callback firing) decrements it.
* Observable calls (`console.error`, `console.warn`, cleanup callbacks and
  the invocation of a computation's user function) are appended to `log`.
-/

namespace Leom

/-- A reference to a subscriber set: either a signal's `subscribers`
(`signal.js` line 105) or a memo's `memoSubscribers` (line 186). -/
inductive Src where
  | sig (s : Nat)
  | mem (m : Nat)
deriving DecidableEq, Repr

/-- Observable events: a cleanup callback ran, a computation's user function
was invoked, the flush caught an exception (line 64), the flush detected a
cycle (line 52), `onCleanup` warned about a missing context (line 86),
`createRoot` caught a setup error (line 250). -/
inductive Ev where
  | cleanDone (k : Nat)
  | ran (c : Nat)
  | errCaught (c : Nat)
  | cycle (c : Nat)
  | warnNoCtx
  | rootErr
deriving DecidableEq, Repr

/-- Commands of a user function body: tracked signal read `s()`, write
`s(v)`, increment `s(s() + 1)`, memo-getter read, `onCleanup(k)`, a
data-dependent branch reading a signal, and raising an exception. -/
inductive Cmd where
  | read (s : Nat)
  | write (s : Nat) (v : Int)
  | incw (s : Nat)
  | readM (m : Nat)
  | clean (k : Nat)
  | iteR (s : Nat) (a b : Cmd)
  | throwE
deriving DecidableEq, Repr

/-- Expressions of a memo's user function (`createMemo`'s `fn`). -/
inductive MExpr where
  | const (n : Int)
  | readS (s : Nat)
  | readM (m : Nat)
  | add (a b : MExpr)
  | throwE
deriving DecidableEq, Repr

/-- The body a computation id is wired to: an effect body, a memo body, or a
root setup body. -/
inductive Body where
  | effB (cs : List Cmd)
  | memB (e : MExpr)
  | rootB (cs : List Cmd)

/-- The environment fixing each computation id's user function. -/
def Env : Type := Nat → Body

/-- Mutable state of one signal: `value` and `subscribers`
(`signal.js` lines 104-105). -/
structure SigSt where
  value : Int
  subs : List Nat
deriving DecidableEq, Repr

/-- Mutable state of one computation: `dependencies`, `cleanups`, `disposed`,
`running` (lines 154-157), plus the memo-only cache `mval`/`minit` and memo
subscriber set `msubs` (lines 184-186). -/
structure CompSt where
  deps : List Src
  cleanups : List Nat
  disposed : Bool
  running : Bool
  mval : Int
  minit : Bool
  msubs : List Nat
deriving DecidableEq, Repr

/-- A freshly constructed computation (lines 154-157, 184-186, 210-213). -/
def CompSt.init : CompSt :=
  ⟨[], [], false, false, 0, false, []⟩

instance : Inhabited CompSt := ⟨CompSt.init⟩

/-- The global engine state: the signal and computation stores, the ambient
context `currentEffect` (line 14), the `effectQueue` (line 21), the
`isBatching` flag (line 28), the number of scheduled-but-unfired microtask
flush callbacks, and the observable event log. -/
structure St where
  sigs : Nat → SigSt
  comps : Nat → CompSt
  current : Option Nat
  queue : List Nat
  isBatching : Bool
  scheduled : Nat
  log : List Ev

attribute [ext] St

/-- Update one signal's state. -/
def updSig (i : Nat) (f : SigSt → SigSt) (st : St) : St :=
  { st with sigs := fun j => if j = i then f (st.sigs j) else st.sigs j }

/-- Update one computation's state. -/
def updComp (i : Nat) (f : CompSt → CompSt) (st : St) : St :=
  { st with comps := fun j => if j = i then f (st.comps j) else st.comps j }

/-- `Set.add`: append if absent (JS sets are insertion-ordered). -/
def addUnique {α : Type} [DecidableEq α] (l : List α) (a : α) : List α :=
  if a ∈ l then l else l ++ [a]

/-- The subscriber set a `Src` refers to. -/
def subsOf (src : Src) (st : St) : List Nat :=
  match src with
  | .sig s => (st.sigs s).subs
  | .mem m => (st.comps m).msubs

/-- A computation's dependency set. -/
def depsOf (c : Nat) (st : St) : List Src :=
  (st.comps c).deps

/-- `depSet.delete(effect)` (lines 142, 166, 192): remove computation `c`
from the subscriber set `src` refers to. -/
def removeSub (src : Src) (c : Nat) (st : St) : St :=
  match src with
  | .sig s => updSig s (fun g => { g with subs := g.subs.erase c }) st
  | .mem m => updComp m (fun k => { k with msubs := k.msubs.erase c }) st

/-- `scheduleUpdate` (lines 36-43 of `signal.js`): add the computation to the
`effectQueue` if absent; if no flush is batching, mark `isBatching` and
schedule one microtask flush callback. -/
def scheduleUpdate (c : Nat) (st : St) : St :=
  let st1 := { st with queue := addUnique st.queue c }
  if st1.isBatching then st1
  else { st1 with isBatching := true, scheduled := st1.scheduled + 1 }

/-- `subscribers.forEach(scheduleUpdate)` (lines 111, 203). -/
def notifyAll (l : List Nat) (st : St) : St :=
  l.foldl (fun acc m => scheduleUpdate m acc) st

/-- The tracking half of a read or write (lines 115-118, 218-221): while a
computation is the ambient context, add it to the source's subscriber set and
the source to its dependency set. -/
def trackRead (src : Src) (st : St) : St :=
  match st.current with
  | none => st
  | some c =>
    let st1 :=
      match src with
      | .sig s => updSig s (fun g => { g with subs := addUnique g.subs c }) st
      | .mem m => updComp m (fun k => { k with msubs := addUnique k.msubs c }) st
    updComp c (fun k => { k with deps := addUnique k.deps src }) st1

/-- `signal()` with no argument (lines 107-121, getter path): perform the
tracking logic and return the value. -/
def readSig (s : Nat) (st : St) : St × Int :=
  (trackRead (.sig s) st, (st.sigs s).value)

/-- `signal(newValue)` (lines 107-121, setter path): if `newValue` differs
from the stored value, store it and enqueue every current subscriber; then
perform the tracking logic; return the value. -/
def writeSig (s : Nat) (v : Int) (st : St) : St × Int :=
  let g := st.sigs s
  let st1 :=
    if v = g.value then st
    else notifyAll g.subs (updSig s (fun g0 => { g0 with value := v }) st)
  (trackRead (.sig s) st1, v)

/-- `memoGetter` (lines 217-223): record the tracking edge against the memo's
own subscriber set and return the cached value. -/
def readMemo (m : Nat) (st : St) : St × Int :=
  (trackRead (.mem m) st, (st.comps m).mval)

/-- `onCleanup(fn)` (lines 82-88): append to the ambient context's cleanup
list, or warn when there is none. -/
def onCleanup (k : Nat) (st : St) : St :=
  match st.current with
  | some c => updComp c (fun t => { t with cleanups := t.cleanups ++ [k] }) st
  | none => { st with log := st.log ++ [Ev.warnNoCtx] }

/-- Execute one command of a user function body.  Returns the new state, a
success flag (`false` = the command raised), and the trace of sources whose
read/write tracking logic was reached, in order. -/
def execCmd : Cmd → St → St × Bool × List Src
  | .read s, st => ((readSig s st).1, true, [.sig s])
  | .write s v, st => ((writeSig s v st).1, true, [.sig s])
  | .incw s, st =>
    let p := readSig s st
    ((writeSig s (p.2 + 1) p.1).1, true, [.sig s, .sig s])
  | .readM m, st => ((readMemo m st).1, true, [.mem m])
  | .clean k, st => (onCleanup k st, true, [])
  | .iteR s a b, st =>
    let p := readSig s st
    let r := if p.2 ≠ 0 then execCmd a p.1 else execCmd b p.1
    (r.1, r.2.1, Src.sig s :: r.2.2)
  | .throwE, st => (st, false, [])

/-- Execute a command list, stopping at the first raised exception. -/
def execCmds : List Cmd → St → St × Bool × List Src
  | [], st => (st, true, [])
  | cmd :: rest, st =>
    let r := execCmd cmd st
    if r.2.1 then
      let r2 := execCmds rest r.1
      (r2.1, r2.2.1, r.2.2 ++ r2.2.2)
    else (r.1, false, r.2.2)

/-- Evaluate a memo expression: new state, `none` on a raised exception, and
the trace of tracked sources. -/
def evalM : MExpr → St → St × Option Int × List Src
  | .const n, st => (st, some n, [])
  | .readS s, st =>
    let p := readSig s st
    (p.1, some p.2, [.sig s])
  | .readM m, st =>
    let p := readMemo m st
    (p.1, some p.2, [.mem m])
  | .add a b, st =>
    let ra := evalM a st
    match ra.2.1 with
    | none => (ra.1, none, ra.2.2)
    | some va =>
      let rb := evalM b ra.1
      match rb.2.1 with
      | none => (rb.1, none, ra.2.2 ++ rb.2.2)
      | some vb => (rb.1, some (va + vb), ra.2.2 ++ rb.2.2)
  | .throwE, st => (st, none, [])

/-- The teardown phase of a re-run (lines 139-143, 189-193): run the previous
run's cleanups in registration order, clear the cleanup list, remove the
computation from every recorded dependency's subscriber set, clear the
dependency set. -/
def teardownComp (c : Nat) (st : St) : St :=
  let cl := (st.comps c).cleanups
  let dp := (st.comps c).deps
  let st1 := { st with log := st.log ++ cl.map Ev.cleanDone }
  let st2 := updComp c (fun k => { k with cleanups := [] }) st1
  let st3 := dp.foldl (fun acc src => removeSub src c acc) st2
  updComp c (fun k => { k with deps := [] }) st3

/-- The memo commit (lines 200-204): when uninitialized or the fresh value
differs from the cache, update the cache and notify the memo's subscribers. -/
def memoCommit (m : Nat) (v : Int) (st : St) : St :=
  let k := st.comps m
  if ¬ k.minit ∨ v ≠ k.mval then
    notifyAll k.msubs
      (updComp m (fun t => { t with mval := v, minit := true }) st)
  else st

/-- One run of a computation (`effect` lines 138-152, `memoEffect` lines
188-208): teardown, swap the ambient context in, invoke the user function
(marked by `Ev.ran`), restore the ambient context even on an exception.
Calling a root context as a function throws immediately (it is not callable),
before any teardown.  Returns the state, a success flag and the run's tracked
source trace.  `swapIn` is the ambient-context swap (lines 145-146, 195-196),
with the invocation of the user function marked in the log. -/
def swapIn (c : Nat) (st1 : St) : St :=
  { st1 with current := some c, log := st1.log ++ [Ev.ran c] }

/-- One run of a computation: teardown, swap in, execute, restore. -/
def runComp (env : Env) (c : Nat) (st : St) : St × Bool × List Src :=
  match env c with
  | Body.rootB _ => (st, false, [])
  | Body.effB cs =>
    let st1 := teardownComp c st
    let prev := st1.current
    let r := execCmds cs (swapIn c st1)
    ({ r.1 with current := prev }, r.2.1, r.2.2)
  | Body.memB e =>
    let st1 := teardownComp c st
    let prev := st1.current
    let r := evalM e (swapIn c st1)
    match r.2.1 with
    | none => ({ r.1 with current := prev }, false, r.2.2)
    | some v =>
      let st3 := memoCommit c v r.1
      ({ st3 with current := prev }, true, r.2.2)

/-- Initialize a computation's fields (lines 154-157 / 210-213). -/
def initComp (c : Nat) (st : St) : St :=
  updComp c (fun _ => CompSt.init) st

/-- `createEffect(fn)` (lines 137-170): initialize the computation and run it
once immediately.  The initial run is *not* guarded: the success flag is
`false` when `fn` raised, in which case the exception escapes `createEffect`
and the caller receives no disposer. -/
def createEffect (env : Env) (c : Nat) (st : St) : St × Bool :=
  let r := runComp env c (initComp c st)
  (r.1, r.2.1)

/-- `createMemo(fn)` (lines 183-226): initialize the computation and run it
once immediately (line 215, also unguarded). -/
def createMemo (env : Env) (m : Nat) (st : St) : St × Bool :=
  let r := runComp env m (initComp m st)
  (r.1, r.2.1)

/-- The disposer returned by `createEffect` (lines 162-169): if not already
disposed, mark disposed, run all cleanups, remove every dependency edge,
clear the dependency set, and delete the computation from the queue.
(The cleanup list itself is not cleared — faithful to the source.) -/
def dispose (c : Nat) (st : St) : St :=
  if (st.comps c).disposed then st
  else
    let cl := (st.comps c).cleanups
    let dp := (st.comps c).deps
    let st1 := updComp c (fun k => { k with disposed := true }) st
    let st2 := { st1 with log := st1.log ++ cl.map Ev.cleanDone }
    let st3 := dp.foldl (fun acc src => removeSub src c acc) st2
    let st4 := updComp c (fun k => { k with deps := [] }) st3
    { st4 with queue := st4.queue.erase c }

/-- The body of the flush's `for` loop over the queue snapshot (lines 46-72):
delete from the live queue, skip disposed computations, skip and log
already-`running` computations (cycle detection), otherwise set `running`,
run inside the error boundary (logging a caught exception), and clear
`running`. -/
def flushLoop (env : Env) : List Nat → St → St
  | [], st => st
  | c :: rest, st =>
    let st1 := { st with queue := st.queue.erase c }
    if (st1.comps c).disposed then flushLoop env rest st1
    else if (st1.comps c).running then
      flushLoop env rest { st1 with log := st1.log ++ [Ev.cycle c] }
    else
      let st2 := updComp c (fun k => { k with running := true }) st1
      let r := runComp env c st2
      let st3 := if r.2.1 then r.1
        else { r.1 with log := r.1.log ++ [Ev.errCaught c] }
      let st4 := updComp c (fun k => { k with running := false }) st3
      flushLoop env rest st4

/-- The microtask flush callback firing (lines 43-73): one scheduled callback
is consumed, `isBatching` is cleared first, then the loop runs over a
snapshot of the queue. -/
def flush (env : Env) (st : St) : St :=
  flushLoop env st.queue
    { st with isBatching := false, scheduled := st.scheduled - 1 }

/-- `createRoot(fn)` (lines 235-269): install a fresh context as the ambient
context, run the setup body, catch and log any setup error, and always
restore the previous ambient context.  (The disposer is always returned.) -/
def createRoot (env : Env) (r : Nat) (st : St) : St :=
  let st0 := initComp r st
  let prev := st0.current
  let st1 := { st0 with current := some r }
  match env r with
  | Body.rootB cs =>
    let res := execCmds cs st1
    let st2 := if res.2.1 then res.1
      else { res.1 with log := res.1.log ++ [Ev.rootErr] }
    { st2 with current := prev }
  | _ => { st1 with current := prev }

/-- Iterated flushes (successive microtask turns). -/
def iterFlush (env : Env) : Nat → St → St
  | 0, st => st
  | n + 1, st => iterFlush env n (flush env st)

/-- Number of times computation `c`'s user function has been invoked,
according to the log. -/
def countRan (c : Nat) (l : List Ev) : Nat :=
  l.count (Ev.ran c)

/-- The single-pending-flush invariant: the number of scheduled microtask
callbacks is 1 while `isBatching` and 0 otherwise. -/
def Pinv (st : St) : Prop :=
  st.scheduled = if st.isBatching then 1 else 0

/-- The edge-consistency property for one computation: it subscribes only to
sources recorded in its own dependency set. -/
def EdgeInv (c : Nat) (st : St) : Prop :=
  ∀ src : Src, c ∈ subsOf src st → src ∈ depsOf c st

/-- The all-empty starting state: every signal is `⟨0, []⟩`, every
computation fresh, no ambient context, empty queue, nothing scheduled. -/
def initSt : St :=
  { sigs := fun _ => ⟨0, []⟩
    comps := fun _ => CompSt.init
    current := none
    queue := []
    isBatching := false
    scheduled := 0
    log := [] }

/-- Build an environment from a list of bodies. -/
def envOf (l : List Body) : Env :=
  fun c => l.getD c (Body.effB [])

/-- Computation 0 is an effect whose body is `s(s() + 1)` on signal 0: it
reads signal 0 and writes back a changed value — a self-read-write effect. -/
def envSelf : Env := envOf [Body.effB [Cmd.incw 0]]

/-- Computation 0 is an effect that reads signal 0, raises, and would then
read signal 1. -/
def envThrow : Env := envOf [Body.effB [Cmd.read 0, Cmd.throwE, Cmd.read 1]]

/-- Computation 0 is an effect whose body is `a() ? b() : c()` on signals
0, 1, 2: it reads signal 0 and then one branch signal. -/
def envBranch : Env :=
  envOf [Body.effB [Cmd.iteR 0 (Cmd.read 1) (Cmd.read 2)]]

/-- Computation 0 is an effect reading memo 1; computation 1 is a memo
computing the value of signal 0. -/
def envMemo : Env :=
  envOf [Body.effB [Cmd.readM 1], Body.memB (MExpr.readS 0)]

/-- Computation 1 is a memo whose function reads signal 0 and then raises:
a memo that fails partway through a run. -/
def envThrowM : Env :=
  envOf [Body.effB [], Body.memB (MExpr.add (MExpr.readS 0) MExpr.throwE)]

/-- The recurring state of the self-incrementing effect `envSelf` between
flushes: signal 0 holds `v` with the effect subscribed, the effect depends on
signal 0, the effect is enqueued and one flush is scheduled. -/
def loopSt (v : Int) (lg : List Ev) : St :=
  { sigs := fun j => if j = 0 then ⟨v, [0]⟩ else ⟨0, []⟩
    comps := fun j => if j = 0 then
        { deps := [Src.sig 0], cleanups := [], disposed := false,
          running := false, mval := 0, minit := false, msubs := [] }
      else CompSt.init
    current := none
    queue := [0]
    isBatching := true
    scheduled := 1
    log := lg }

/-! ## Basic lemmas about the set operations and state updates -/

theorem mem_addUnique {α : Type} [DecidableEq α] {l : List α} {a b : α} :
    b ∈ addUnique l a ↔ b ∈ l ∨ b = a := by
  unfold addUnique
  split
  · constructor
    · exact Or.inl
    · rintro (hb | rfl) <;> assumption
  · simp

theorem addUnique_nodup {α : Type} [DecidableEq α] {l : List α} {a : α}
    (h : l.Nodup) : (addUnique l a).Nodup := by
  unfold addUnique
  split
  · exact h
  · rw [List.nodup_append]
    simpa [h]

theorem mem_addUnique_of_mem {α : Type} [DecidableEq α] {l : List α} {a b : α}
    (h : b ∈ l) : b ∈ addUnique l a :=
  mem_addUnique.mpr (Or.inl h)

theorem self_mem_addUnique {α : Type} [DecidableEq α] (l : List α) (a : α) :
    a ∈ addUnique l a :=
  mem_addUnique.mpr (Or.inr rfl)

theorem updSig_comps (i : Nat) (f : SigSt → SigSt) (st : St) :
    (updSig i f st).comps = st.comps := rfl

theorem updSig_current (i : Nat) (f : SigSt → SigSt) (st : St) :
    (updSig i f st).current = st.current := rfl

theorem updSig_queue (i : Nat) (f : SigSt → SigSt) (st : St) :
    (updSig i f st).queue = st.queue := rfl

theorem updSig_log (i : Nat) (f : SigSt → SigSt) (st : St) :
    (updSig i f st).log = st.log := rfl

theorem updSig_self (i : Nat) (f : SigSt → SigSt) (st : St) :
    (updSig i f st).sigs i = f (st.sigs i) := by
  simp [updSig]

theorem updSig_ne {i j : Nat} (f : SigSt → SigSt) (st : St) (h : j ≠ i) :
    (updSig i f st).sigs j = st.sigs j := by
  simp [updSig, h]

theorem updComp_sigs (i : Nat) (f : CompSt → CompSt) (st : St) :
    (updComp i f st).sigs = st.sigs := rfl

theorem updComp_current (i : Nat) (f : CompSt → CompSt) (st : St) :
    (updComp i f st).current = st.current := rfl

theorem updComp_queue (i : Nat) (f : CompSt → CompSt) (st : St) :
    (updComp i f st).queue = st.queue := rfl

theorem updComp_log (i : Nat) (f : CompSt → CompSt) (st : St) :
    (updComp i f st).log = st.log := rfl

theorem updComp_self (i : Nat) (f : CompSt → CompSt) (st : St) :
    (updComp i f st).comps i = f (st.comps i) := by
  simp [updComp]

theorem updComp_ne {i j : Nat} (f : CompSt → CompSt) (st : St) (h : j ≠ i) :
    (updComp i f st).comps j = st.comps j := by
  simp [updComp, h]

theorem updSig_isBatching (i : Nat) (f : SigSt → SigSt) (st : St) :
    (updSig i f st).isBatching = st.isBatching := rfl

theorem updSig_scheduled (i : Nat) (f : SigSt → SigSt) (st : St) :
    (updSig i f st).scheduled = st.scheduled := rfl

theorem updComp_isBatching (i : Nat) (f : CompSt → CompSt) (st : St) :
    (updComp i f st).isBatching = st.isBatching := rfl

theorem updComp_scheduled (i : Nat) (f : CompSt → CompSt) (st : St) :
    (updComp i f st).scheduled = st.scheduled := rfl

/-! ## Scheduler lemmas: `scheduleUpdate` and `notifyAll` -/

theorem scheduleUpdate_queue (c : Nat) (st : St) :
    (scheduleUpdate c st).queue = addUnique st.queue c := by
  by_cases h : st.isBatching <;> simp [scheduleUpdate, h]

theorem scheduleUpdate_sigs (c : Nat) (st : St) :
    (scheduleUpdate c st).sigs = st.sigs := by
  by_cases h : st.isBatching <;> simp [scheduleUpdate, h]

theorem scheduleUpdate_comps (c : Nat) (st : St) :
    (scheduleUpdate c st).comps = st.comps := by
  by_cases h : st.isBatching <;> simp [scheduleUpdate, h]

theorem scheduleUpdate_current (c : Nat) (st : St) :
    (scheduleUpdate c st).current = st.current := by
  by_cases h : st.isBatching <;> simp [scheduleUpdate, h]

theorem scheduleUpdate_log (c : Nat) (st : St) :
    (scheduleUpdate c st).log = st.log := by
  by_cases h : st.isBatching <;> simp [scheduleUpdate, h]

theorem scheduleUpdate_Pinv (c : Nat) (st : St) (h : Pinv st) :
    Pinv (scheduleUpdate c st) := by
  unfold Pinv at *
  by_cases hb : st.isBatching <;> simp [scheduleUpdate, hb] <;> simp [hb] at h <;> simp [h]

theorem notifyAll_cons (a : Nat) (t : List Nat) (st : St) :
    notifyAll (a :: t) st = notifyAll t (scheduleUpdate a st) := rfl

theorem notifyAll_sigs (l : List Nat) (st : St) :
    (notifyAll l st).sigs = st.sigs := by
  induction l generalizing st with
  | nil => rfl
  | cons a t ih => rw [notifyAll_cons, ih, scheduleUpdate_sigs]

theorem notifyAll_comps (l : List Nat) (st : St) :
    (notifyAll l st).comps = st.comps := by
  induction l generalizing st with
  | nil => rfl
  | cons a t ih => rw [notifyAll_cons, ih, scheduleUpdate_comps]

theorem notifyAll_current (l : List Nat) (st : St) :
    (notifyAll l st).current = st.current := by
  induction l generalizing st with
  | nil => rfl
  | cons a t ih => rw [notifyAll_cons, ih, scheduleUpdate_current]

theorem notifyAll_log (l : List Nat) (st : St) :
    (notifyAll l st).log = st.log := by
  induction l generalizing st with
  | nil => rfl
  | cons a t ih => rw [notifyAll_cons, ih, scheduleUpdate_log]

theorem notifyAll_Pinv (l : List Nat) (st : St) (h : Pinv st) :
    Pinv (notifyAll l st) := by
  induction l generalizing st with
  | nil => exact h
  | cons a t ih => rw [notifyAll_cons]; exact ih _ (scheduleUpdate_Pinv a st h)

theorem mem_queue_scheduleUpdate (c m : Nat) (st : St) (h : m ∈ st.queue) :
    m ∈ (scheduleUpdate c st).queue := by
  rw [scheduleUpdate_queue]; exact mem_addUnique_of_mem h

theorem self_mem_queue_scheduleUpdate (c : Nat) (st : St) :
    c ∈ (scheduleUpdate c st).queue := by
  rw [scheduleUpdate_queue]; exact self_mem_addUnique _ _

theorem mem_queue_notifyAll_of_mem (l : List Nat) (m : Nat) (st : St)
    (h : m ∈ st.queue) : m ∈ (notifyAll l st).queue := by
  induction l generalizing st with
  | nil => exact h
  | cons a t ih => rw [notifyAll_cons]; exact ih _ (mem_queue_scheduleUpdate a m st h)

theorem mem_queue_notifyAll (l : List Nat) (m : Nat) (st : St)
    (h : m ∈ l) : m ∈ (notifyAll l st).queue := by
  induction l generalizing st with
  | nil => cases h
  | cons a t ih =>
    rw [notifyAll_cons]
    rcases List.mem_cons.mp h with rfl | hm
    · exact mem_queue_notifyAll_of_mem t m _ (self_mem_queue_scheduleUpdate m st)
    · exact ih _ hm

theorem mem_queue_of_notifyAll (l : List Nat) (m : Nat) (st : St)
    (h : m ∈ (notifyAll l st).queue) : m ∈ st.queue ∨ m ∈ l := by
  induction l generalizing st with
  | nil => exact Or.inl h
  | cons a t ih =>
    rw [notifyAll_cons] at h
    rcases ih _ h with hq | hl
    · rw [scheduleUpdate_queue] at hq
      rcases mem_addUnique.mp hq with hq | rfl
      · exact Or.inl hq
      · exact Or.inr (List.mem_cons_self _ _)
    · exact Or.inr (List.mem_cons_of_mem _ hl)

theorem scheduleUpdate_queue_nodup (c : Nat) (st : St)
    (h : st.queue.Nodup) : (scheduleUpdate c st).queue.Nodup := by
  rw [scheduleUpdate_queue]; exact addUnique_nodup h

theorem notifyAll_queue_nodup (l : List Nat) (st : St)
    (h : st.queue.Nodup) : (notifyAll l st).queue.Nodup := by
  induction l generalizing st with
  | nil => exact h
  | cons a t ih => rw [notifyAll_cons]; exact ih _ (scheduleUpdate_queue_nodup a st h)

/-! ## Tracking lemmas: `trackRead`, `readSig`, `writeSig`, `readMemo` -/

theorem trackRead_of_none (src : Src) (st : St) (h : st.current = none) :
    trackRead src st = st := by
  unfold trackRead
  rw [h]

theorem trackRead_current (src : Src) (st : St) :
    (trackRead src st).current = st.current := by
  unfold trackRead
  cases hc : st.current <;> cases src <;> simp [updComp, updSig, hc]

theorem trackRead_queue (src : Src) (st : St) :
    (trackRead src st).queue = st.queue := by
  unfold trackRead
  cases st.current <;> cases src <;> rfl

theorem trackRead_log (src : Src) (st : St) :
    (trackRead src st).log = st.log := by
  unfold trackRead
  cases st.current <;> cases src <;> rfl

theorem trackRead_isBatching (src : Src) (st : St) :
    (trackRead src st).isBatching = st.isBatching := by
  unfold trackRead
  cases st.current <;> cases src <;> rfl

theorem trackRead_scheduled (src : Src) (st : St) :
    (trackRead src st).scheduled = st.scheduled := by
  unfold trackRead
  cases st.current <;> cases src <;> rfl

theorem trackRead_Pinv (src : Src) (st : St) (h : Pinv st) :
    Pinv (trackRead src st) := by
  unfold Pinv at *
  rw [trackRead_isBatching, trackRead_scheduled]
  exact h

theorem updComp_pres {b : Type} (p : CompSt → b) (i j : Nat) (f : CompSt → CompSt)
    (st : St) (hf : ∀ k, p (f k) = p k) :
    p ((updComp i f st).comps j) = p (st.comps j) := by
  by_cases h : j = i <;> simp [updComp, h, hf]

theorem updSig_pres {b : Type} (p : SigSt → b) (i j : Nat) (f : SigSt → SigSt)
    (st : St) (hf : ∀ g, p (f g) = p g) :
    p ((updSig i f st).sigs j) = p (st.sigs j) := by
  by_cases h : j = i <;> simp [updSig, h, hf]

theorem trackRead_value (src : Src) (s : Nat) (st : St) :
    ((trackRead src st).sigs s).value = (st.sigs s).value := by
  unfold trackRead
  cases st.current with
  | none => rfl
  | some c =>
    cases src <;> dsimp only <;> simp only [updComp, updSig] <;> split_ifs <;> rfl

theorem trackRead_flags (src : Src) (st : St) (i : Nat) :
    ((trackRead src st).comps i).disposed = (st.comps i).disposed ∧
      ((trackRead src st).comps i).running = (st.comps i).running := by
  unfold trackRead
  cases st.current with
  | none => exact ⟨rfl, rfl⟩
  | some c =>
    cases src <;> dsimp only <;> refine ⟨?_, ?_⟩ <;>
      simp only [updComp, updSig] <;> split_ifs <;> rfl

theorem trackRead_cleanups (src : Src) (st : St) (i : Nat) :
    ((trackRead src st).comps i).cleanups = (st.comps i).cleanups := by
  unfold trackRead
  cases st.current with
  | none => rfl
  | some c =>
    cases src <;> dsimp only <;> simp only [updComp, updSig] <;> split_ifs <;> rfl

theorem trackRead_mval (src : Src) (st : St) (i : Nat) :
    ((trackRead src st).comps i).mval = (st.comps i).mval ∧
      ((trackRead src st).comps i).minit = (st.comps i).minit := by
  unfold trackRead
  cases st.current with
  | none => exact ⟨rfl, rfl⟩
  | some c =>
    cases src <;> dsimp only <;> refine ⟨?_, ?_⟩ <;>
      simp only [updComp, updSig] <;> split_ifs <;> rfl

theorem trackRead_deps (src : Src) (st : St) {c : Nat}
    (h : st.current = some c) :
    depsOf c (trackRead src st) = addUnique (depsOf c st) src := by
  unfold trackRead depsOf
  rw [h]
  cases src <;> dsimp only <;> simp only [updComp, updSig] <;>
    split_ifs <;> simp_all

theorem trackRead_deps_ne (src : Src) (st : St) {c i : Nat}
    (h : st.current = some c) (hi : i ≠ c) :
    depsOf i (trackRead src st) = depsOf i st := by
  unfold trackRead depsOf
  rw [h]
  cases src <;> dsimp only <;> simp only [updComp, updSig] <;>
    split_ifs <;> simp_all

theorem trackRead_subs_self (src : Src) (st : St) {c : Nat}
    (h : st.current = some c) :
    subsOf src (trackRead src st) = addUnique (subsOf src st) c := by
  unfold trackRead subsOf
  rw [h]
  cases src <;> dsimp only <;> simp only [updComp, updSig] <;>
    split_ifs <;> simp_all

theorem trackRead_subs_ne (src src2 : Src) (st : St) {c : Nat}
    (h : st.current = some c) (hne : src2 ≠ src) :
    subsOf src2 (trackRead src st) = subsOf src2 st := by
  unfold trackRead subsOf
  rw [h]
  cases src <;> cases src2 <;> dsimp only <;> simp only [updComp, updSig] <;>
    split_ifs <;> simp_all

theorem trackRead_subs_mono (src src2 : Src) (st : St) {i : Nat}
    (h : i ∈ subsOf src2 st) : i ∈ subsOf src2 (trackRead src st) := by
  unfold trackRead
  cases hc : st.current with
  | none => exact h
  | some c =>
    revert h
    cases src <;> cases src2 <;> dsimp only <;>
      simp only [subsOf, updComp, updSig] <;> (try split_ifs) <;>
      simp_all [mem_addUnique_of_mem]

/-! ## Signal read and write lemmas -/

theorem readSig_of_none (s : Nat) (st : St) (h : st.current = none) :
    readSig s st = (st, (st.sigs s).value) := by
  unfold readSig
  rw [trackRead_of_none _ _ h]

theorem readSig_val (s : Nat) (st : St) :
    (readSig s st).2 = (st.sigs s).value := rfl

theorem writeSig_st_eq (s : Nat) (v : Int) (st : St) :
    (writeSig s v st).1 =
      trackRead (.sig s)
        (if v = (st.sigs s).value then st
         else notifyAll (st.sigs s).subs
           (updSig s (fun g0 => { g0 with value := v }) st)) := rfl

theorem writeSig_val (s : Nat) (v : Int) (st : St) :
    (writeSig s v st).2 = v := rfl

theorem writeSig_eq_read (s : Nat) (v : Int) (st : St)
    (h : v = (st.sigs s).value) : writeSig s v st = readSig s st := by
  unfold writeSig readSig
  simp [h]

theorem writeSig_current (s : Nat) (v : Int) (st : St) :
    (writeSig s v st).1.current = st.current := by
  rw [writeSig_st_eq, trackRead_current]
  split <;> simp [notifyAll_current, updSig_current]

theorem writeSig_log (s : Nat) (v : Int) (st : St) :
    (writeSig s v st).1.log = st.log := by
  rw [writeSig_st_eq, trackRead_log]
  split <;> simp [notifyAll_log, updSig_log]

theorem writeSig_flags (s : Nat) (v : Int) (st : St) (i : Nat) :
    ((writeSig s v st).1.comps i).disposed = (st.comps i).disposed ∧
      ((writeSig s v st).1.comps i).running = (st.comps i).running := by
  rw [writeSig_st_eq]
  refine ⟨?_, ?_⟩
  · rw [(trackRead_flags _ _ i).1]
    split <;> simp [notifyAll_comps, updSig_comps]
  · rw [(trackRead_flags _ _ i).2]
    split <;> simp [notifyAll_comps, updSig_comps]

theorem writeSig_cleanups (s : Nat) (v : Int) (st : St) (i : Nat) :
    ((writeSig s v st).1.comps i).cleanups = (st.comps i).cleanups := by
  rw [writeSig_st_eq, trackRead_cleanups]
  split <;> simp [notifyAll_comps, updSig_comps]

theorem writeSig_mval (s : Nat) (v : Int) (st : St) (i : Nat) :
    ((writeSig s v st).1.comps i).mval = (st.comps i).mval ∧
      ((writeSig s v st).1.comps i).minit = (st.comps i).minit := by
  rw [writeSig_st_eq]
  refine ⟨?_, ?_⟩
  · rw [(trackRead_mval _ _ i).1]
    split <;> simp [notifyAll_comps, updSig_comps]
  · rw [(trackRead_mval _ _ i).2]
    split <;> simp [notifyAll_comps, updSig_comps]

theorem writeSig_Pinv (s : Nat) (v : Int) (st : St) (h : Pinv st) :
    Pinv (writeSig s v st).1 := by
  rw [writeSig_st_eq]
  apply trackRead_Pinv
  split
  · exact h
  · exact notifyAll_Pinv _ _ (by unfold Pinv at *; simpa [updSig] using h)

theorem writeSig_queue_nodup (s : Nat) (v : Int) (st : St)
    (h : st.queue.Nodup) : (writeSig s v st).1.queue.Nodup := by
  rw [writeSig_st_eq, trackRead_queue]
  split
  · exact h
  · exact notifyAll_queue_nodup _ _ (by simpa [updSig] using h)

theorem writeSig_queue_of_eq (s : Nat) (v : Int) (st : St)
    (h : v = (st.sigs s).value) : (writeSig s v st).1.queue = st.queue := by
  rw [writeSig_st_eq, trackRead_queue, if_pos h]

theorem writeSig_queue_mono (s : Nat) (v : Int) (st : St) {m : Nat}
    (h : m ∈ st.queue) : m ∈ (writeSig s v st).1.queue := by
  rw [writeSig_st_eq, trackRead_queue]
  split
  · exact h
  · exact mem_queue_notifyAll_of_mem _ _ _ (by simpa [updSig] using h)

theorem writeSig_queue_of_sub (s : Nat) (v : Int) (st : St) {m : Nat}
    (hv : v ≠ (st.sigs s).value) (hm : m ∈ (st.sigs s).subs) :
    m ∈ (writeSig s v st).1.queue := by
  rw [writeSig_st_eq, trackRead_queue, if_neg hv]
  exact mem_queue_notifyAll _ _ _ hm

theorem writeSig_queue_src (s : Nat) (v : Int) (st : St) {m : Nat}
    (h : m ∈ (writeSig s v st).1.queue) :
    m ∈ st.queue ∨ (v ≠ (st.sigs s).value ∧ m ∈ (st.sigs s).subs) := by
  rw [writeSig_st_eq, trackRead_queue] at h
  by_cases hv : v = (st.sigs s).value
  · rw [if_pos hv] at h
    exact Or.inl h
  · rw [if_neg hv] at h
    rcases mem_queue_of_notifyAll _ _ _ h with hq | hs
    · exact Or.inl (by simpa [updSig] using hq)
    · exact Or.inr ⟨hv, hs⟩

theorem writeSig_value (s : Nat) (v : Int) (st : St) :
    ((writeSig s v st).1.sigs s).value = v := by
  rw [writeSig_st_eq, trackRead_value]
  split
  · next h => exact h.symm
  · simp [notifyAll_sigs, updSig_self]

theorem writeSig_subs_track (s : Nat) (v : Int) (st : St) {c : Nat}
    (h : st.current = some c) :
    c ∈ subsOf (.sig s) (writeSig s v st).1 := by
  rw [writeSig_st_eq]
  have hcur : (if v = (st.sigs s).value then st
      else notifyAll (st.sigs s).subs
        (updSig s (fun g0 => { g0 with value := v }) st)).current = some c := by
    split <;> simp [notifyAll_current, updSig_current, h]
  rw [trackRead_subs_self _ _ hcur]
  exact self_mem_addUnique _ _

theorem writeSig_deps_track (s : Nat) (v : Int) (st : St) {c : Nat}
    (h : st.current = some c) :
    Src.sig s ∈ depsOf c (writeSig s v st).1 := by
  rw [writeSig_st_eq]
  have hcur : (if v = (st.sigs s).value then st
      else notifyAll (st.sigs s).subs
        (updSig s (fun g0 => { g0 with value := v }) st)).current = some c := by
    split <;> simp [notifyAll_current, updSig_current, h]
  rw [trackRead_deps _ _ hcur]
  exact self_mem_addUnique _ _

/-! ## `readMemo` and `onCleanup` lemmas -/

theorem readMemo_of_none (m : Nat) (st : St) (h : st.current = none) :
    readMemo m st = (st, (st.comps m).mval) := by
  unfold readMemo
  rw [trackRead_of_none _ _ h]

theorem readMemo_val (m : Nat) (st : St) :
    (readMemo m st).2 = (st.comps m).mval := rfl

theorem readMemo_log (m : Nat) (st : St) :
    (readMemo m st).1.log = st.log := trackRead_log _ _

theorem readMemo_subs_track (m : Nat) (st : St) {c : Nat}
    (h : st.current = some c) :
    c ∈ subsOf (.mem m) (readMemo m st).1 := by
  show c ∈ subsOf (.mem m) (trackRead (.mem m) st)
  rw [trackRead_subs_self _ _ h]
  exact self_mem_addUnique _ _

theorem readMemo_deps_track (m : Nat) (st : St) {c : Nat}
    (h : st.current = some c) :
    Src.mem m ∈ depsOf c (readMemo m st).1 := by
  show Src.mem m ∈ depsOf c (trackRead (.mem m) st)
  rw [trackRead_deps _ _ h]
  exact self_mem_addUnique _ _

theorem onCleanup_of_some (k : Nat) (st : St) {c : Nat}
    (h : st.current = some c) :
    onCleanup k st =
      updComp c (fun t => { t with cleanups := t.cleanups ++ [k] }) st := by
  unfold onCleanup
  rw [h]

theorem onCleanup_of_none (k : Nat) (st : St) (h : st.current = none) :
    onCleanup k st = { st with log := st.log ++ [Ev.warnNoCtx] } := by
  unfold onCleanup
  rw [h]

theorem onCleanup_current (k : Nat) (st : St) :
    (onCleanup k st).current = st.current := by
  unfold onCleanup
  cases hc : st.current <;> simp [updComp, hc]

theorem onCleanup_queue (k : Nat) (st : St) :
    (onCleanup k st).queue = st.queue := by
  unfold onCleanup
  cases hc : st.current <;> simp [updComp]

theorem onCleanup_sigs (k : Nat) (st : St) :
    (onCleanup k st).sigs = st.sigs := by
  unfold onCleanup
  cases hc : st.current <;> simp [updComp]

theorem onCleanup_Pinv (k : Nat) (st : St) (h : Pinv st) :
    Pinv (onCleanup k st) := by
  unfold onCleanup Pinv at *
  cases hc : st.current <;> simp [updComp] <;> exact h

theorem onCleanup_log_of_some (k : Nat) (st : St) {c : Nat}
    (h : st.current = some c) : (onCleanup k st).log = st.log := by
  rw [onCleanup_of_some k st h, updComp_log]

theorem onCleanup_flags (k : Nat) (st : St) (i : Nat) :
    ((onCleanup k st).comps i).disposed = (st.comps i).disposed ∧
      ((onCleanup k st).comps i).running = (st.comps i).running := by
  unfold onCleanup
  cases hc : st.current with
  | none => exact ⟨rfl, rfl⟩
  | some c =>
    refine ⟨?_, ?_⟩ <;> simp only [updComp] <;> split_ifs <;> rfl

theorem onCleanup_mval (k : Nat) (st : St) (i : Nat) :
    ((onCleanup k st).comps i).mval = (st.comps i).mval ∧
      ((onCleanup k st).comps i).minit = (st.comps i).minit := by
  unfold onCleanup
  cases hc : st.current with
  | none => exact ⟨rfl, rfl⟩
  | some c =>
    refine ⟨?_, ?_⟩ <;> simp only [updComp] <;> split_ifs <;> rfl

theorem onCleanup_deps (k : Nat) (st : St) (i : Nat) :
    depsOf i (onCleanup k st) = depsOf i st := by
  unfold onCleanup depsOf
  cases hc : st.current with
  | none => rfl
  | some c => simp only [updComp] ; split_ifs <;> rfl

theorem onCleanup_subsOf (k : Nat) (st : St) (src : Src) :
    subsOf src (onCleanup k st) = subsOf src st := by
  unfold onCleanup
  cases hc : st.current with
  | none => cases src <;> rfl
  | some c =>
    cases src with
    | sig s => rfl
    | mem m => simp only [subsOf, updComp] ; split_ifs <;> rfl

/-! ## Command execution lemmas -/

theorem trackRead_subs_iff (src src2 : Src) (st : St) {c : Nat}
    (h : st.current = some c) :
    c ∈ subsOf src2 (trackRead src st) ↔
      c ∈ subsOf src2 st ∨ src2 = src := by
  by_cases he : src2 = src
  · subst he
    rw [trackRead_subs_self _ _ h, mem_addUnique]
    simp
  · rw [trackRead_subs_ne _ _ _ h he]
    simp [he]

theorem updSig_val_subs (s : Nat) (v : Int) (st : St) (src : Src) :
    subsOf src (updSig s (fun g0 => { g0 with value := v }) st) =
      subsOf src st := by
  cases src with
  | sig s2 => simp only [subsOf, updSig] ; split_ifs <;> rfl
  | mem m => rfl

theorem notifyAll_subsOf (l : List Nat) (st : St) (src : Src) :
    subsOf src (notifyAll l st) = subsOf src st := by
  cases src <;> simp [subsOf, notifyAll_sigs, notifyAll_comps]

theorem writeSig_pre_subs (s : Nat) (v : Int) (st : St) (src : Src) :
    subsOf src (if v = (st.sigs s).value then st
      else notifyAll (st.sigs s).subs
        (updSig s (fun g0 => { g0 with value := v }) st)) = subsOf src st := by
  split
  · rfl
  · rw [notifyAll_subsOf, updSig_val_subs]

theorem writeSig_pre_current (s : Nat) (v : Int) (st : St) :
    (if v = (st.sigs s).value then st
      else notifyAll (st.sigs s).subs
        (updSig s (fun g0 => { g0 with value := v }) st)).current =
      st.current := by
  split
  · rfl
  · rw [notifyAll_current, updSig_current]

theorem writeSig_pre_deps (s : Nat) (v : Int) (st : St) (i : Nat) :
    depsOf i (if v = (st.sigs s).value then st
      else notifyAll (st.sigs s).subs
        (updSig s (fun g0 => { g0 with value := v }) st)) = depsOf i st := by
  unfold depsOf
  split
  · rfl
  · rw [notifyAll_comps, updSig_comps]

theorem writeSig_subs_iff (s : Nat) (v : Int) (st : St) (src : Src) {c : Nat}
    (h : st.current = some c) :
    c ∈ subsOf src (writeSig s v st).1 ↔
      c ∈ subsOf src st ∨ src = Src.sig s := by
  rw [writeSig_st_eq]
  rw [trackRead_subs_iff _ _ _ (by rw [writeSig_pre_current, h])]
  rw [writeSig_pre_subs]

theorem writeSig_deps_char (s : Nat) (v : Int) (st : St) {c : Nat}
    (h : st.current = some c) :
    depsOf c (writeSig s v st).1 = addUnique (depsOf c st) (Src.sig s) := by
  rw [writeSig_st_eq]
  rw [trackRead_deps _ _ (by rw [writeSig_pre_current, h])]
  rw [writeSig_pre_deps]

theorem execCmd_current (cmd : Cmd) (st : St) :
    (execCmd cmd st).1.current = st.current := by
  induction cmd generalizing st with
  | read s => exact trackRead_current _ _
  | write s v => exact writeSig_current s v st
  | incw s =>
    show (writeSig _ _ (readSig s st).1).1.current = st.current
    rw [writeSig_current]
    exact trackRead_current _ _
  | readM m => exact trackRead_current _ _
  | clean k => exact onCleanup_current _ _
  | throwE => rfl
  | iteR s a b iha ihb =>
    simp only [execCmd]
    split
    · rw [iha]; exact trackRead_current _ _
    · rw [ihb]; exact trackRead_current _ _

theorem execCmds_current (cs : List Cmd) (st : St) :
    (execCmds cs st).1.current = st.current := by
  induction cs generalizing st with
  | nil => rfl
  | cons cmd rest ih =>
    simp only [execCmds]
    split
    · rw [ih, execCmd_current]
    · exact execCmd_current _ _

theorem execCmd_flags (cmd : Cmd) (st : St) (i : Nat) :
    ((execCmd cmd st).1.comps i).disposed = (st.comps i).disposed ∧
      ((execCmd cmd st).1.comps i).running = (st.comps i).running := by
  induction cmd generalizing st with
  | read s => exact trackRead_flags _ _ _
  | write s v => exact writeSig_flags s v st i
  | incw s =>
    refine ⟨((writeSig_flags _ _ _ i).1).trans (trackRead_flags _ _ i).1,
      ((writeSig_flags _ _ _ i).2).trans (trackRead_flags _ _ i).2⟩
  | readM m => exact trackRead_flags _ _ _
  | clean k => exact onCleanup_flags _ _ _
  | throwE => exact ⟨rfl, rfl⟩
  | iteR s a b iha ihb =>
    simp only [execCmd]
    split
    · exact ⟨((iha _).1).trans (trackRead_flags _ _ i).1,
        ((iha _).2).trans (trackRead_flags _ _ i).2⟩
    · exact ⟨((ihb _).1).trans (trackRead_flags _ _ i).1,
        ((ihb _).2).trans (trackRead_flags _ _ i).2⟩

theorem execCmds_flags (cs : List Cmd) (st : St) (i : Nat) :
    ((execCmds cs st).1.comps i).disposed = (st.comps i).disposed ∧
      ((execCmds cs st).1.comps i).running = (st.comps i).running := by
  induction cs generalizing st with
  | nil => exact ⟨rfl, rfl⟩
  | cons cmd rest ih =>
    simp only [execCmds]
    split
    · exact ⟨((ih _).1).trans (execCmd_flags cmd st i).1,
        ((ih _).2).trans (execCmd_flags cmd st i).2⟩
    · exact execCmd_flags cmd st i

theorem execCmd_mval (cmd : Cmd) (st : St) (i : Nat) :
    ((execCmd cmd st).1.comps i).mval = (st.comps i).mval ∧
      ((execCmd cmd st).1.comps i).minit = (st.comps i).minit := by
  induction cmd generalizing st with
  | read s => exact trackRead_mval _ _ _
  | write s v => exact writeSig_mval s v st i
  | incw s =>
    refine ⟨((writeSig_mval _ _ _ i).1).trans (trackRead_mval _ _ i).1,
      ((writeSig_mval _ _ _ i).2).trans (trackRead_mval _ _ i).2⟩
  | readM m => exact trackRead_mval _ _ _
  | clean k => exact onCleanup_mval _ _ _
  | throwE => exact ⟨rfl, rfl⟩
  | iteR s a b iha ihb =>
    simp only [execCmd]
    split
    · exact ⟨((iha _).1).trans (trackRead_mval _ _ i).1,
        ((iha _).2).trans (trackRead_mval _ _ i).2⟩
    · exact ⟨((ihb _).1).trans (trackRead_mval _ _ i).1,
        ((ihb _).2).trans (trackRead_mval _ _ i).2⟩

theorem execCmds_mval (cs : List Cmd) (st : St) (i : Nat) :
    ((execCmds cs st).1.comps i).mval = (st.comps i).mval ∧
      ((execCmds cs st).1.comps i).minit = (st.comps i).minit := by
  induction cs generalizing st with
  | nil => exact ⟨rfl, rfl⟩
  | cons cmd rest ih =>
    simp only [execCmds]
    split
    · exact ⟨((ih _).1).trans (execCmd_mval cmd st i).1,
        ((ih _).2).trans (execCmd_mval cmd st i).2⟩
    · exact execCmd_mval cmd st i

theorem execCmd_Pinv (cmd : Cmd) (st : St) (h : Pinv st) :
    Pinv (execCmd cmd st).1 := by
  induction cmd generalizing st with
  | read s => exact trackRead_Pinv _ _ h
  | write s v => exact writeSig_Pinv s v st h
  | incw s => exact writeSig_Pinv _ _ _ (trackRead_Pinv _ _ h)
  | readM m => exact trackRead_Pinv _ _ h
  | clean k => exact onCleanup_Pinv _ _ h
  | throwE => exact h
  | iteR s a b iha ihb =>
    simp only [execCmd]
    split
    · exact iha _ (trackRead_Pinv _ _ h)
    · exact ihb _ (trackRead_Pinv _ _ h)

theorem execCmds_Pinv (cs : List Cmd) (st : St) (h : Pinv st) :
    Pinv (execCmds cs st).1 := by
  induction cs generalizing st with
  | nil => exact h
  | cons cmd rest ih =>
    simp only [execCmds]
    split
    · exact ih _ (execCmd_Pinv cmd st h)
    · exact execCmd_Pinv cmd st h

theorem execCmd_queue_nodup (cmd : Cmd) (st : St) (h : st.queue.Nodup) :
    (execCmd cmd st).1.queue.Nodup := by
  induction cmd generalizing st with
  | read s =>
    show (trackRead (Src.sig s) st).queue.Nodup
    rw [trackRead_queue]
    exact h
  | write s v => exact writeSig_queue_nodup s v st h
  | incw s =>
    refine writeSig_queue_nodup _ _ _ ?_
    show (trackRead (Src.sig s) st).queue.Nodup
    rw [trackRead_queue]
    exact h
  | readM m =>
    show (trackRead (Src.mem m) st).queue.Nodup
    rw [trackRead_queue]
    exact h
  | clean k =>
    show (onCleanup k st).queue.Nodup
    rw [onCleanup_queue]
    exact h
  | throwE => exact h
  | iteR s a b iha ihb =>
    simp only [execCmd]
    have hq : (readSig s st).1.queue.Nodup := by
      show (trackRead (Src.sig s) st).queue.Nodup
      rw [trackRead_queue]
      exact h
    split
    · exact iha _ hq
    · exact ihb _ hq

theorem execCmds_queue_nodup (cs : List Cmd) (st : St) (h : st.queue.Nodup) :
    (execCmds cs st).1.queue.Nodup := by
  induction cs generalizing st with
  | nil => exact h
  | cons cmd rest ih =>
    simp only [execCmds]
    split
    · exact ih _ (execCmd_queue_nodup cmd st h)
    · exact execCmd_queue_nodup cmd st h

theorem execCmd_log_some (cmd : Cmd) (st : St) {c : Nat}
    (h : st.current = some c) : (execCmd cmd st).1.log = st.log := by
  induction cmd generalizing st with
  | read s => exact trackRead_log _ _
  | write s v => exact writeSig_log s v st
  | incw s =>
    show (writeSig _ _ (readSig s st).1).1.log = st.log
    rw [writeSig_log]
    exact trackRead_log _ _
  | readM m => exact trackRead_log _ _
  | clean k => exact onCleanup_log_of_some _ _ h
  | throwE => rfl
  | iteR s a b iha ihb =>
    simp only [execCmd]
    have hc : (readSig s st).1.current = some c := by
      show (trackRead (Src.sig s) st).current = some c
      rw [trackRead_current, h]
    split
    · rw [iha _ hc]; exact trackRead_log _ _
    · rw [ihb _ hc]; exact trackRead_log _ _

theorem execCmds_log_some (cs : List Cmd) (st : St) {c : Nat}
    (h : st.current = some c) : (execCmds cs st).1.log = st.log := by
  induction cs generalizing st with
  | nil => rfl
  | cons cmd rest ih =>
    simp only [execCmds]
    split
    · rw [ih _ (by rw [execCmd_current, h]), execCmd_log_some cmd st h]
    · exact execCmd_log_some cmd st h

theorem execCmd_deps_char (cmd : Cmd) (st : St) {c : Nat}
    (h : st.current = some c) :
    depsOf c (execCmd cmd st).1 =
      List.foldl addUnique (depsOf c st) (execCmd cmd st).2.2 := by
  induction cmd generalizing st with
  | read s => exact trackRead_deps _ _ h
  | write s v => exact writeSig_deps_char s v st h
  | incw s =>
    show depsOf c (writeSig _ _ (readSig s st).1).1 = _
    rw [writeSig_deps_char _ _ _ (by
      show (trackRead (Src.sig s) st).current = some c
      rw [trackRead_current, h])]
    rw [show depsOf c (readSig s st).1 = addUnique (depsOf c st) (.sig s) from
      trackRead_deps _ _ h]
    rfl
  | readM m => exact trackRead_deps _ _ h
  | clean k =>
    show depsOf c (onCleanup k st) = List.foldl addUnique (depsOf c st) []
    rw [onCleanup_deps]
    rfl
  | throwE => rfl
  | iteR s a b iha ihb =>
    simp only [execCmd]
    have hc : (readSig s st).1.current = some c := by
      show (trackRead (Src.sig s) st).current = some c
      rw [trackRead_current, h]
    have hd : depsOf c (readSig s st).1 = addUnique (depsOf c st) (.sig s) :=
      trackRead_deps _ _ h
    split
    · rw [iha _ hc, hd]; rfl
    · rw [ihb _ hc, hd]; rfl

theorem execCmds_deps_char (cs : List Cmd) (st : St) {c : Nat}
    (h : st.current = some c) :
    depsOf c (execCmds cs st).1 =
      List.foldl addUnique (depsOf c st) (execCmds cs st).2.2 := by
  induction cs generalizing st with
  | nil => rfl
  | cons cmd rest ih =>
    simp only [execCmds]
    split
    · rw [List.foldl_append, ih _ (by rw [execCmd_current, h]),
        execCmd_deps_char cmd st h]
    · exact execCmd_deps_char cmd st h

theorem execCmd_subs_char (cmd : Cmd) (st : St) {c : Nat}
    (h : st.current = some c) (src : Src) :
    (c ∈ subsOf src (execCmd cmd st).1 ↔
      c ∈ subsOf src st ∨ src ∈ (execCmd cmd st).2.2) := by
  induction cmd generalizing st with
  | read s =>
    show c ∈ subsOf src (trackRead (Src.sig s) st) ↔
      c ∈ subsOf src st ∨ src ∈ [Src.sig s]
    rw [trackRead_subs_iff _ _ _ h]
    simp
  | write s v =>
    show c ∈ subsOf src (writeSig s v st).1 ↔
      c ∈ subsOf src st ∨ src ∈ [Src.sig s]
    rw [writeSig_subs_iff s v st src h]
    simp
  | incw s =>
    show c ∈ subsOf src (writeSig _ _ (readSig s st).1).1 ↔
      c ∈ subsOf src st ∨ src ∈ [Src.sig s, Src.sig s]
    rw [writeSig_subs_iff _ _ _ _ (by
      show (trackRead (Src.sig s) st).current = some c
      rw [trackRead_current, h])]
    have hiff : c ∈ subsOf src (readSig s st).1 ↔
        c ∈ subsOf src st ∨ src = .sig s := trackRead_subs_iff _ _ _ h
    rw [hiff]
    simp only [List.mem_cons, List.not_mem_nil, or_false]
    tauto
  | readM m =>
    show c ∈ subsOf src (trackRead (Src.mem m) st) ↔
      c ∈ subsOf src st ∨ src ∈ [Src.mem m]
    rw [trackRead_subs_iff _ _ _ h]
    simp
  | clean k =>
    show c ∈ subsOf src (onCleanup k st) ↔
      c ∈ subsOf src st ∨ src ∈ ([] : List Src)
    rw [onCleanup_subsOf]
    simp
  | throwE =>
    show c ∈ subsOf src st ↔ c ∈ subsOf src st ∨ src ∈ ([] : List Src)
    simp
  | iteR s a b iha ihb =>
    simp only [execCmd]
    have hc : (readSig s st).1.current = some c := by
      show (trackRead (Src.sig s) st).current = some c
      rw [trackRead_current, h]
    have hs : c ∈ subsOf src (readSig s st).1 ↔
        c ∈ subsOf src st ∨ src = .sig s := trackRead_subs_iff _ src _ h
    split
    · rw [iha _ hc, hs]
      simp only [List.mem_cons]
      tauto
    · rw [ihb _ hc, hs]
      simp only [List.mem_cons]
      tauto

theorem execCmds_subs_char (cs : List Cmd) (st : St) {c : Nat}
    (h : st.current = some c) (src : Src) :
    (c ∈ subsOf src (execCmds cs st).1 ↔
      c ∈ subsOf src st ∨ src ∈ (execCmds cs st).2.2) := by
  induction cs generalizing st with
  | nil => simp [execCmds]
  | cons cmd rest ih =>
    simp only [execCmds]
    split
    · rw [ih _ (by rw [execCmd_current, h]), execCmd_subs_char cmd st h src]
      simp only [List.mem_append]
      tauto
    · rw [execCmd_subs_char cmd st h src]

/-! ## Memo expression evaluation lemmas -/

theorem evalM_current (e : MExpr) (st : St) :
    (evalM e st).1.current = st.current := by
  induction e generalizing st with
  | const n => rfl
  | readS s => exact trackRead_current _ _
  | readM m => exact trackRead_current _ _
  | throwE => rfl
  | add a b iha ihb =>
    simp only [evalM]
    split
    · rw [iha]
    · split
      · rw [ihb, iha]
      · rw [ihb, iha]

theorem evalM_log (e : MExpr) (st : St) :
    (evalM e st).1.log = st.log := by
  induction e generalizing st with
  | const n => rfl
  | readS s => exact trackRead_log _ _
  | readM m => exact trackRead_log _ _
  | throwE => rfl
  | add a b iha ihb =>
    simp only [evalM]
    split
    · rw [iha]
    · split
      · rw [ihb, iha]
      · rw [ihb, iha]

theorem evalM_flags (e : MExpr) (st : St) (i : Nat) :
    ((evalM e st).1.comps i).disposed = (st.comps i).disposed ∧
      ((evalM e st).1.comps i).running = (st.comps i).running := by
  induction e generalizing st with
  | const n => exact ⟨rfl, rfl⟩
  | readS s => exact trackRead_flags _ _ _
  | readM m => exact trackRead_flags _ _ _
  | throwE => exact ⟨rfl, rfl⟩
  | add a b iha ihb =>
    simp only [evalM]
    split
    · exact iha _
    · split
      · exact ⟨((ihb _).1).trans (iha _).1, ((ihb _).2).trans (iha _).2⟩
      · exact ⟨((ihb _).1).trans (iha _).1, ((ihb _).2).trans (iha _).2⟩

theorem evalM_mval (e : MExpr) (st : St) (i : Nat) :
    ((evalM e st).1.comps i).mval = (st.comps i).mval ∧
      ((evalM e st).1.comps i).minit = (st.comps i).minit := by
  induction e generalizing st with
  | const n => exact ⟨rfl, rfl⟩
  | readS s => exact trackRead_mval _ _ _
  | readM m => exact trackRead_mval _ _ _
  | throwE => exact ⟨rfl, rfl⟩
  | add a b iha ihb =>
    simp only [evalM]
    split
    · exact iha _
    · split
      · exact ⟨((ihb _).1).trans (iha _).1, ((ihb _).2).trans (iha _).2⟩
      · exact ⟨((ihb _).1).trans (iha _).1, ((ihb _).2).trans (iha _).2⟩

theorem evalM_Pinv (e : MExpr) (st : St) (h : Pinv st) :
    Pinv (evalM e st).1 := by
  induction e generalizing st with
  | const n => exact h
  | readS s => exact trackRead_Pinv _ _ h
  | readM m => exact trackRead_Pinv _ _ h
  | throwE => exact h
  | add a b iha ihb =>
    simp only [evalM]
    split
    · exact iha _ h
    · split
      · exact ihb _ (iha _ h)
      · exact ihb _ (iha _ h)

theorem evalM_queue_nodup (e : MExpr) (st : St) (h : st.queue.Nodup) :
    (evalM e st).1.queue.Nodup := by
  induction e generalizing st with
  | const n => exact h
  | readS s =>
    show (trackRead (Src.sig s) st).queue.Nodup
    rw [trackRead_queue]
    exact h
  | readM m =>
    show (trackRead (Src.mem m) st).queue.Nodup
    rw [trackRead_queue]
    exact h
  | throwE => exact h
  | add a b iha ihb =>
    simp only [evalM]
    split
    · exact iha _ h
    · split
      · exact ihb _ (iha _ h)
      · exact ihb _ (iha _ h)

theorem evalM_deps_char (e : MExpr) (st : St) {c : Nat}
    (h : st.current = some c) :
    depsOf c (evalM e st).1 =
      List.foldl addUnique (depsOf c st) (evalM e st).2.2 := by
  induction e generalizing st with
  | const n => rfl
  | readS s => exact trackRead_deps _ _ h
  | readM m => exact trackRead_deps _ _ h
  | throwE => rfl
  | add a b iha ihb =>
    simp only [evalM]
    have hca : (evalM a st).1.current = some c := by rw [evalM_current, h]
    split
    · exact iha _ h
    · split
      · rw [List.foldl_append, ihb _ hca, iha _ h]
      · rw [List.foldl_append, ihb _ hca, iha _ h]

theorem evalM_subs_char (e : MExpr) (st : St) {c : Nat}
    (h : st.current = some c) (src : Src) :
    (c ∈ subsOf src (evalM e st).1 ↔
      c ∈ subsOf src st ∨ src ∈ (evalM e st).2.2) := by
  induction e generalizing st with
  | const n => simp [evalM]
  | readS s =>
    show c ∈ subsOf src (trackRead (Src.sig s) st) ↔
      c ∈ subsOf src st ∨ src ∈ [Src.sig s]
    rw [trackRead_subs_iff _ _ _ h]
    simp
  | readM m =>
    show c ∈ subsOf src (trackRead (Src.mem m) st) ↔
      c ∈ subsOf src st ∨ src ∈ [Src.mem m]
    rw [trackRead_subs_iff _ _ _ h]
    simp
  | throwE => simp [evalM]
  | add a b iha ihb =>
    simp only [evalM]
    have hca : (evalM a st).1.current = some c := by rw [evalM_current, h]
    split
    · rw [iha _ h]
    · split
      · rw [ihb _ hca, iha _ h]
        simp only [List.mem_append]
        tauto
      · rw [ihb _ hca, iha _ h]
        simp only [List.mem_append]
        tauto

/-! ## Teardown lemmas -/

theorem removeSub_current (src : Src) (c : Nat) (st : St) :
    (removeSub src c st).current = st.current := by
  cases src <;> rfl

theorem removeSub_queue (src : Src) (c : Nat) (st : St) :
    (removeSub src c st).queue = st.queue := by
  cases src <;> rfl

theorem removeSub_log (src : Src) (c : Nat) (st : St) :
    (removeSub src c st).log = st.log := by
  cases src <;> rfl

theorem removeSub_isBatching (src : Src) (c : Nat) (st : St) :
    (removeSub src c st).isBatching = st.isBatching := by
  cases src <;> rfl

theorem removeSub_scheduled (src : Src) (c : Nat) (st : St) :
    (removeSub src c st).scheduled = st.scheduled := by
  cases src <;> rfl

theorem removeSub_flags (src : Src) (c : Nat) (st : St) (i : Nat) :
    ((removeSub src c st).comps i).disposed = (st.comps i).disposed ∧
      ((removeSub src c st).comps i).running = (st.comps i).running := by
  cases src with
  | sig s => exact ⟨rfl, rfl⟩
  | mem m =>
    refine ⟨?_, ?_⟩ <;> simp only [removeSub, updComp] <;> split_ifs <;> rfl

theorem removeSub_mval (src : Src) (c : Nat) (st : St) (i : Nat) :
    ((removeSub src c st).comps i).mval = (st.comps i).mval ∧
      ((removeSub src c st).comps i).minit = (st.comps i).minit := by
  cases src with
  | sig s => exact ⟨rfl, rfl⟩
  | mem m =>
    refine ⟨?_, ?_⟩ <;> simp only [removeSub, updComp] <;> split_ifs <;> rfl

theorem removeSub_cleanups (src : Src) (c : Nat) (st : St) (i : Nat) :
    ((removeSub src c st).comps i).cleanups = (st.comps i).cleanups := by
  cases src with
  | sig s => rfl
  | mem m => simp only [removeSub, updComp] ; split_ifs <;> rfl

theorem removeSub_deps (src : Src) (c : Nat) (st : St) (i : Nat) :
    depsOf i (removeSub src c st) = depsOf i st := by
  cases src with
  | sig s => rfl
  | mem m => simp only [depsOf, removeSub, updComp] ; split_ifs <;> rfl

theorem removeSub_subs_self (src : Src) (c : Nat) (st : St) :
    subsOf src (removeSub src c st) = (subsOf src st).erase c := by
  cases src with
  | sig s => simp only [subsOf, removeSub, updSig] ; split_ifs <;> simp_all
  | mem m => simp only [subsOf, removeSub, updComp] ; split_ifs <;> simp_all

theorem removeSub_subs_ne (src src2 : Src) (c : Nat) (st : St)
    (h : src2 ≠ src) : subsOf src2 (removeSub src c st) = subsOf src2 st := by
  cases src <;> cases src2 <;>
    simp only [subsOf, removeSub, updSig, updComp] <;> (try split_ifs) <;>
    simp_all

theorem removeSub_subs_sub (src src2 : Src) (c : Nat) (st : St) {i : Nat}
    (h : i ∈ subsOf src2 (removeSub src c st)) : i ∈ subsOf src2 st := by
  by_cases he : src2 = src
  · subst he
    rw [removeSub_subs_self] at h
    exact List.mem_of_mem_erase h
  · rwa [removeSub_subs_ne _ _ _ _ he] at h

theorem removeSub_subsNodup (src : Src) (c : Nat) (st : St)
    (h : ∀ src2, (subsOf src2 st).Nodup) (src2 : Src) :
    (subsOf src2 (removeSub src c st)).Nodup := by
  by_cases he : src2 = src
  · subst he
    rw [removeSub_subs_self]
    exact (h src2).erase c
  · rw [removeSub_subs_ne _ _ _ _ he]
    exact h src2

/-- The dependency-teardown fold of lines 142, 166: remove `c` from every
recorded source's subscriber set. -/
theorem tdFold_current (dp : List Src) (c : Nat) (st : St) :
    (dp.foldl (fun acc src => removeSub src c acc) st).current = st.current := by
  induction dp generalizing st with
  | nil => rfl
  | cons d rest ih => rw [List.foldl_cons, ih, removeSub_current]

theorem tdFold_queue (dp : List Src) (c : Nat) (st : St) :
    (dp.foldl (fun acc src => removeSub src c acc) st).queue = st.queue := by
  induction dp generalizing st with
  | nil => rfl
  | cons d rest ih => rw [List.foldl_cons, ih, removeSub_queue]

theorem tdFold_log (dp : List Src) (c : Nat) (st : St) :
    (dp.foldl (fun acc src => removeSub src c acc) st).log = st.log := by
  induction dp generalizing st with
  | nil => rfl
  | cons d rest ih => rw [List.foldl_cons, ih, removeSub_log]

theorem tdFold_isBatching (dp : List Src) (c : Nat) (st : St) :
    (dp.foldl (fun acc src => removeSub src c acc) st).isBatching =
      st.isBatching := by
  induction dp generalizing st with
  | nil => rfl
  | cons d rest ih => rw [List.foldl_cons, ih, removeSub_isBatching]

theorem tdFold_scheduled (dp : List Src) (c : Nat) (st : St) :
    (dp.foldl (fun acc src => removeSub src c acc) st).scheduled =
      st.scheduled := by
  induction dp generalizing st with
  | nil => rfl
  | cons d rest ih => rw [List.foldl_cons, ih, removeSub_scheduled]

theorem tdFold_flags (dp : List Src) (c : Nat) (st : St) (i : Nat) :
    ((dp.foldl (fun acc src => removeSub src c acc) st).comps i).disposed =
        (st.comps i).disposed ∧
      ((dp.foldl (fun acc src => removeSub src c acc) st).comps i).running =
        (st.comps i).running := by
  induction dp generalizing st with
  | nil => exact ⟨rfl, rfl⟩
  | cons d rest ih =>
    rw [List.foldl_cons]
    exact ⟨((ih _).1).trans (removeSub_flags d c st i).1,
      ((ih _).2).trans (removeSub_flags d c st i).2⟩

theorem tdFold_mval (dp : List Src) (c : Nat) (st : St) (i : Nat) :
    ((dp.foldl (fun acc src => removeSub src c acc) st).comps i).mval =
        (st.comps i).mval ∧
      ((dp.foldl (fun acc src => removeSub src c acc) st).comps i).minit =
        (st.comps i).minit := by
  induction dp generalizing st with
  | nil => exact ⟨rfl, rfl⟩
  | cons d rest ih =>
    rw [List.foldl_cons]
    exact ⟨((ih _).1).trans (removeSub_mval d c st i).1,
      ((ih _).2).trans (removeSub_mval d c st i).2⟩

theorem tdFold_cleanups (dp : List Src) (c : Nat) (st : St) (i : Nat) :
    ((dp.foldl (fun acc src => removeSub src c acc) st).comps i).cleanups =
      (st.comps i).cleanups := by
  induction dp generalizing st with
  | nil => rfl
  | cons d rest ih =>
    rw [List.foldl_cons]
    exact (ih _).trans (removeSub_cleanups d c st i)

theorem tdFold_deps (dp : List Src) (c : Nat) (st : St) (i : Nat) :
    depsOf i (dp.foldl (fun acc src => removeSub src c acc) st) =
      depsOf i st := by
  induction dp generalizing st with
  | nil => rfl
  | cons d rest ih =>
    rw [List.foldl_cons]
    exact (ih _).trans (removeSub_deps d c st i)

theorem tdFold_subs_sub (dp : List Src) (c : Nat) (st : St) (src2 : Src)
    {i : Nat}
    (h : i ∈ subsOf src2 (dp.foldl (fun acc src => removeSub src c acc) st)) :
    i ∈ subsOf src2 st := by
  induction dp generalizing st with
  | nil => exact h
  | cons d rest ih =>
    rw [List.foldl_cons] at h
    exact removeSub_subs_sub d src2 c st (ih _ h)

theorem tdFold_subsNodup (dp : List Src) (c : Nat) (st : St)
    (h : ∀ src2, (subsOf src2 st).Nodup) (src2 : Src) :
    (subsOf src2 (dp.foldl (fun acc src => removeSub src c acc) st)).Nodup := by
  induction dp generalizing st with
  | nil => exact h src2
  | cons d rest ih =>
    rw [List.foldl_cons]
    exact ih _ (removeSub_subsNodup d c st h)

theorem tdFold_removed (dp : List Src) (c : Nat) (st : St)
    (hnd : ∀ src2, (subsOf src2 st).Nodup) {src : Src} (h : src ∈ dp) :
    c ∉ subsOf src (dp.foldl (fun acc src => removeSub src c acc) st) := by
  induction dp generalizing st with
  | nil => cases h
  | cons d rest ih =>
    rw [List.foldl_cons]
    rcases List.mem_cons.mp h with rfl | hm
    · by_cases hr : src ∈ rest
      · exact ih _ (removeSub_subsNodup src c st hnd) hr
      · intro hmem
        have h2 : c ∈ subsOf src (removeSub src c st) :=
          tdFold_subs_sub rest c _ src hmem
        rw [removeSub_subs_self] at h2
        exact (List.Nodup.not_mem_erase (hnd src)) h2
    · exact ih _ (removeSub_subsNodup d c st hnd) hm

theorem tdFold_not_mem (dp : List Src) (c : Nat) (st : St) (src : Src)
    (h : c ∉ subsOf src st) :
    c ∉ subsOf src (dp.foldl (fun acc src => removeSub src c acc) st) :=
  fun hmem => h (tdFold_subs_sub dp c st src hmem)

theorem teardownComp_eq (c : Nat) (st : St) :
    teardownComp c st =
      updComp c (fun k => { k with deps := [] })
        ((st.comps c).deps.foldl (fun acc src => removeSub src c acc)
          (updComp c (fun k => { k with cleanups := [] })
            { st with log := st.log ++ (st.comps c).cleanups.map Ev.cleanDone })) :=
  rfl

theorem teardownComp_current (c : Nat) (st : St) :
    (teardownComp c st).current = st.current := by
  rw [teardownComp_eq, updComp_current, tdFold_current, updComp_current]

theorem teardownComp_queue (c : Nat) (st : St) :
    (teardownComp c st).queue = st.queue := by
  rw [teardownComp_eq, updComp_queue, tdFold_queue, updComp_queue]

theorem teardownComp_log (c : Nat) (st : St) :
    (teardownComp c st).log =
      st.log ++ (st.comps c).cleanups.map Ev.cleanDone := by
  rw [teardownComp_eq, updComp_log, tdFold_log, updComp_log]

theorem teardownComp_isBatching (c : Nat) (st : St) :
    (teardownComp c st).isBatching = st.isBatching := by
  rw [teardownComp_eq, updComp_isBatching, tdFold_isBatching, updComp_isBatching]

theorem teardownComp_scheduled (c : Nat) (st : St) :
    (teardownComp c st).scheduled = st.scheduled := by
  rw [teardownComp_eq, updComp_scheduled, tdFold_scheduled, updComp_scheduled]

theorem teardownComp_Pinv (c : Nat) (st : St) (h : Pinv st) :
    Pinv (teardownComp c st) := by
  unfold Pinv at *
  rw [teardownComp_isBatching, teardownComp_scheduled]
  exact h

theorem teardownComp_deps_self (c : Nat) (st : St) :
    depsOf c (teardownComp c st) = [] := by
  rw [teardownComp_eq]
  simp [depsOf, updComp]

theorem teardownComp_cleanups_self (c : Nat) (st : St) :
    ((teardownComp c st).comps c).cleanups = [] := by
  rw [teardownComp_eq]
  have h3 : ∀ st2 : St,
      ((updComp c (fun k => { k with deps := ([] : List Src) }) st2).comps
        c).cleanups = (st2.comps c).cleanups := fun st2 => by simp [updComp]
  rw [h3, tdFold_cleanups]
  simp [updComp]

theorem teardownComp_flags (c : Nat) (st : St) (i : Nat) :
    ((teardownComp c st).comps i).disposed = (st.comps i).disposed ∧
      ((teardownComp c st).comps i).running = (st.comps i).running := by
  rw [teardownComp_eq]
  have h2 : ∀ st2 : St,
      ((updComp c (fun k => { k with cleanups := ([] : List Nat) }) st2).comps
          i).disposed = (st2.comps i).disposed ∧
        ((updComp c (fun k => { k with cleanups := ([] : List Nat) }) st2).comps
          i).running = (st2.comps i).running := by
    intro st2
    refine ⟨?_, ?_⟩ <;> simp only [updComp] <;> split_ifs <;> rfl
  have h3 : ∀ st2 : St,
      ((updComp c (fun k => { k with deps := ([] : List Src) }) st2).comps
          i).disposed = (st2.comps i).disposed ∧
        ((updComp c (fun k => { k with deps := ([] : List Src) }) st2).comps
          i).running = (st2.comps i).running := by
    intro st2
    refine ⟨?_, ?_⟩ <;> simp only [updComp] <;> split_ifs <;> rfl
  refine ⟨?_, ?_⟩
  · rw [(h3 _).1, (tdFold_flags _ _ _ i).1, (h2 _).1]
  · rw [(h3 _).2, (tdFold_flags _ _ _ i).2, (h2 _).2]

theorem teardownComp_subs_removed (c : Nat) (st : St)
    (hnd : ∀ src2, (subsOf src2 st).Nodup) {src : Src}
    (h : src ∈ depsOf c st) : c ∉ subsOf src (teardownComp c st) := by
  rw [teardownComp_eq]
  have hpre : ∀ src2, (subsOf src2
      (updComp c (fun k => { k with cleanups := ([] : List Nat) })
        { st with log := st.log ++ (st.comps c).cleanups.map Ev.cleanDone })).Nodup := by
    intro src2
    cases src2 with
    | sig s => exact hnd (.sig s)
    | mem m =>
      show ((updComp c _ _).comps m).msubs.Nodup
      simp only [updComp]
      split_ifs <;> exact hnd (.mem m)
  intro hmem
  have h2 : c ∈ subsOf src ((st.comps c).deps.foldl
      (fun acc src => removeSub src c acc)
      (updComp c (fun k => { k with cleanups := ([] : List Nat) })
        { st with log := st.log ++ (st.comps c).cleanups.map Ev.cleanDone })) := by
    cases src with
    | sig s => exact hmem
    | mem m =>
      revert hmem
      show c ∈ subsOf (.mem m) (updComp c _ _) → _
      simp only [subsOf, updComp]
      split_ifs <;> exact id
  exact tdFold_removed _ c _ hpre h h2

theorem teardownComp_subs_not_mem (c : Nat) (st : St) (src : Src)
    (h : c ∉ subsOf src st) : c ∉ subsOf src (teardownComp c st) := by
  rw [teardownComp_eq]
  intro hmem
  have h2 : c ∈ subsOf src ((st.comps c).deps.foldl
      (fun acc src => removeSub src c acc)
      (updComp c (fun k => { k with cleanups := ([] : List Nat) })
        { st with log := st.log ++ (st.comps c).cleanups.map Ev.cleanDone })) := by
    cases src with
    | sig s => exact hmem
    | mem m =>
      revert hmem
      show c ∈ subsOf (.mem m) (updComp c _ _) → _
      simp only [subsOf, updComp]
      split_ifs <;> exact id
  have h3 := tdFold_subs_sub _ c _ src h2
  revert h3
  cases src with
  | sig s => exact h
  | mem m =>
    show c ∈ subsOf (.mem m) (updComp c _ _) → _
    simp only [subsOf, updComp]
    split_ifs <;> exact h

theorem teardownComp_subs_none (c : Nat) (st : St)
    (hnd : ∀ src2, (subsOf src2 st).Nodup)
    (hinv : EdgeInv c st) (src : Src) :
    c ∉ subsOf src (teardownComp c st) := by
  by_cases hd : src ∈ depsOf c st
  · exact teardownComp_subs_removed c st hnd hd
  · exact teardownComp_subs_not_mem c st src (fun hmem => hd (hinv src hmem))

/-! ## Memo commit lemmas -/

theorem memoCommit_of_same (m : Nat) (v : Int) (st : St)
    (hinit : (st.comps m).minit = true) (hval : v = (st.comps m).mval) :
    memoCommit m v st = st := by
  unfold memoCommit
  rw [if_neg]
  push_neg
  exact ⟨by simp [hinit], hval⟩

theorem memoCommit_of_change (m : Nat) (v : Int) (st : St)
    (h : ¬ (st.comps m).minit = true ∨ v ≠ (st.comps m).mval) :
    memoCommit m v st =
      notifyAll (st.comps m).msubs
        (updComp m (fun t => { t with mval := v, minit := true }) st) := by
  unfold memoCommit
  rw [if_pos]
  simpa using h

theorem memoCommit_mval_of_change (m : Nat) (v : Int) (st : St)
    (h : ¬ (st.comps m).minit = true ∨ v ≠ (st.comps m).mval) :
    ((memoCommit m v st).comps m).mval = v ∧
      ((memoCommit m v st).comps m).minit = true := by
  rw [memoCommit_of_change m v st h]
  rw [show ∀ st2 : St, (notifyAll (st.comps m).msubs st2).comps = st2.comps
    from fun st2 => notifyAll_comps _ _]
  constructor <;> simp [updComp]

theorem memoCommit_queue_of_change (m : Nat) (v : Int) (st : St)
    (h : ¬ (st.comps m).minit = true ∨ v ≠ (st.comps m).mval) {x : Nat}
    (hx : x ∈ (st.comps m).msubs) : x ∈ (memoCommit m v st).queue := by
  rw [memoCommit_of_change m v st h]
  exact mem_queue_notifyAll _ _ _ hx

theorem memoCommit_current (m : Nat) (v : Int) (st : St) :
    (memoCommit m v st).current = st.current := by
  unfold memoCommit
  dsimp only
  split
  · rw [notifyAll_current, updComp_current]
  · rfl

theorem memoCommit_log (m : Nat) (v : Int) (st : St) :
    (memoCommit m v st).log = st.log := by
  unfold memoCommit
  dsimp only
  split
  · rw [notifyAll_log, updComp_log]
  · rfl

theorem memoCommit_flags (m : Nat) (v : Int) (st : St) (i : Nat) :
    ((memoCommit m v st).comps i).disposed = (st.comps i).disposed ∧
      ((memoCommit m v st).comps i).running = (st.comps i).running := by
  unfold memoCommit
  dsimp only
  split
  · rw [show ∀ st2 : St, (notifyAll (st.comps m).msubs st2).comps = st2.comps
      from fun st2 => notifyAll_comps _ _]
    refine ⟨?_, ?_⟩ <;> simp only [updComp] <;> split_ifs <;> rfl
  · exact ⟨rfl, rfl⟩

theorem memoCommit_Pinv (m : Nat) (v : Int) (st : St) (h : Pinv st) :
    Pinv (memoCommit m v st) := by
  unfold memoCommit
  dsimp only
  split
  · exact notifyAll_Pinv _ _ (by unfold Pinv at *; simpa [updComp] using h)
  · exact h

theorem memoCommit_queue_nodup (m : Nat) (v : Int) (st : St)
    (h : st.queue.Nodup) : (memoCommit m v st).queue.Nodup := by
  unfold memoCommit
  dsimp only
  split
  · exact notifyAll_queue_nodup _ _ (by simpa [updComp] using h)
  · exact h

theorem memoCommit_queue_unchanged (m : Nat) (v : Int) (st : St)
    (hinit : (st.comps m).minit = true) (hval : v = (st.comps m).mval) :
    (memoCommit m v st).queue = st.queue := by
  rw [memoCommit_of_same m v st hinit hval]

theorem memoCommit_deps (m : Nat) (v : Int) (st : St) (i : Nat) :
    depsOf i (memoCommit m v st) = depsOf i st := by
  unfold memoCommit
  dsimp only
  split
  · rw [show ∀ st2 : St, depsOf i (notifyAll (st.comps m).msubs st2) =
      depsOf i st2 from fun st2 => by unfold depsOf; rw [notifyAll_comps]]
    unfold depsOf
    simp only [updComp]
    split_ifs <;> rfl
  · rfl

/-! ## Counting and `addUnique` fold lemmas -/

theorem countRan_append (c : Nat) (l1 l2 : List Ev) :
    countRan c (l1 ++ l2) = countRan c l1 + countRan c l2 :=
  List.count_append _ _ _

theorem countRan_cleanDone (c : Nat) (cl : List Nat) :
    countRan c (cl.map Ev.cleanDone) = 0 := by
  unfold countRan
  rw [List.count_eq_zero]
  intro h
  rcases List.mem_map.mp h with ⟨x, _, hx⟩
  cases hx

theorem countRan_ran (c c2 : Nat) :
    countRan c [Ev.ran c2] = if c = c2 then 1 else 0 := by
  unfold countRan
  by_cases h : c = c2 <;> simp [List.count_singleton, h]

theorem countRan_cycle (c c2 : Nat) : countRan c [Ev.cycle c2] = 0 := by
  unfold countRan
  simp

theorem countRan_errCaught (c c2 : Nat) :
    countRan c [Ev.errCaught c2] = 0 := by
  unfold countRan
  simp

theorem mem_foldl_addUnique {α : Type} [DecidableEq α] (tr : List α)
    (l : List α) (b : α) :
    b ∈ List.foldl addUnique l tr ↔ b ∈ l ∨ b ∈ tr := by
  induction tr generalizing l with
  | nil => simp
  | cons x rest ih =>
    rw [List.foldl_cons, ih, mem_addUnique]
    simp only [List.mem_cons]
    tauto

/-! ## Computation run lemmas -/

theorem swapIn_current (c : Nat) (st : St) :
    (swapIn c st).current = some c := rfl

theorem swapIn_queue (c : Nat) (st : St) :
    (swapIn c st).queue = st.queue := rfl

theorem swapIn_comps (c : Nat) (st : St) :
    (swapIn c st).comps = st.comps := rfl

theorem swapIn_sigs (c : Nat) (st : St) :
    (swapIn c st).sigs = st.sigs := rfl

theorem swapIn_log (c : Nat) (st : St) :
    (swapIn c st).log = st.log ++ [Ev.ran c] := rfl

theorem swapIn_Pinv (c : Nat) (st : St) (h : Pinv st) :
    Pinv (swapIn c st) := h

theorem runComp_root_eq (env : Env) (c : Nat) (st : St) {cs : List Cmd}
    (henv : env c = Body.rootB cs) : runComp env c st = (st, false, []) := by
  unfold runComp
  rw [henv]

theorem runComp_eff_eq (env : Env) (c : Nat) (st : St) {cs : List Cmd}
    (henv : env c = Body.effB cs) :
    runComp env c st =
      ({ (execCmds cs (swapIn c (teardownComp c st))).1 with
          current := (teardownComp c st).current },
        (execCmds cs (swapIn c (teardownComp c st))).2.1,
        (execCmds cs (swapIn c (teardownComp c st))).2.2) := by
  unfold runComp
  rw [henv]

theorem runComp_current (env : Env) (c : Nat) (st : St) :
    (runComp env c st).1.current = st.current := by
  unfold runComp
  cases henv : env c with
  | rootB cs => rfl
  | effB cs => exact teardownComp_current c st
  | memB e =>
    dsimp only
    split
    · exact teardownComp_current c st
    · exact teardownComp_current c st

theorem runComp_Pinv (env : Env) (c : Nat) (st : St) (h : Pinv st) :
    Pinv (runComp env c st).1 := by
  unfold runComp
  have hP2 : Pinv (swapIn c (teardownComp c st)) :=
    swapIn_Pinv _ _ (teardownComp_Pinv c st h)
  cases henv : env c with
  | rootB cs => exact h
  | effB cs =>
    dsimp only
    exact execCmds_Pinv cs _ hP2
  | memB e =>
    dsimp only
    have he := evalM_Pinv e _ hP2
    split
    · exact he
    · exact memoCommit_Pinv c _ _ he

theorem runComp_queue_nodup (env : Env) (c : Nat) (st : St)
    (h : st.queue.Nodup) : (runComp env c st).1.queue.Nodup := by
  unfold runComp
  have hq2 : (swapIn c (teardownComp c st)).queue.Nodup := by
    rw [swapIn_queue, teardownComp_queue]
    exact h
  cases henv : env c with
  | rootB cs => exact h
  | effB cs => exact execCmds_queue_nodup cs _ hq2
  | memB e =>
    dsimp only
    split
    · exact evalM_queue_nodup e _ hq2
    · exact memoCommit_queue_nodup _ _ _ (evalM_queue_nodup e _ hq2)

theorem runComp_flags (env : Env) (c : Nat) (st : St) (i : Nat) :
    ((runComp env c st).1.comps i).disposed = (st.comps i).disposed ∧
      ((runComp env c st).1.comps i).running = (st.comps i).running := by
  unfold runComp
  have htd := teardownComp_flags c st i
  cases henv : env c with
  | rootB cs => exact ⟨rfl, rfl⟩
  | effB cs =>
    dsimp only
    have hex := execCmds_flags cs (swapIn c (teardownComp c st)) i
    rw [swapIn_comps] at hex
    exact ⟨hex.1.trans htd.1, hex.2.trans htd.2⟩
  | memB e =>
    dsimp only
    have hev := evalM_flags e (swapIn c (teardownComp c st)) i
    rw [swapIn_comps] at hev
    split
    · exact ⟨hev.1.trans htd.1, hev.2.trans htd.2⟩
    · next v hv =>
      have hco := memoCommit_flags c v (evalM e (swapIn c (teardownComp c st))).1 i
      exact ⟨(hco.1.trans hev.1).trans htd.1, (hco.2.trans hev.2).trans htd.2⟩

theorem runComp_log_eff (env : Env) (c : Nat) (st : St) {cs : List Cmd}
    (henv : env c = Body.effB cs) :
    (runComp env c st).1.log =
      st.log ++ (st.comps c).cleanups.map Ev.cleanDone ++ [Ev.ran c] := by
  unfold runComp
  rw [henv]
  dsimp only
  rw [execCmds_log_some _ _ (swapIn_current c (teardownComp c st)),
    swapIn_log, teardownComp_log, List.append_assoc]

theorem runComp_log_mem (env : Env) (c : Nat) (st : St) {e : MExpr}
    (henv : env c = Body.memB e) :
    (runComp env c st).1.log =
      st.log ++ (st.comps c).cleanups.map Ev.cleanDone ++ [Ev.ran c] := by
  unfold runComp
  rw [henv]
  dsimp only
  have hl : (evalM e (swapIn c (teardownComp c st))).1.log =
      st.log ++ (st.comps c).cleanups.map Ev.cleanDone ++ [Ev.ran c] := by
    rw [evalM_log, swapIn_log, teardownComp_log, List.append_assoc]
  split
  · exact hl
  · show (memoCommit c _ _).log = _
    rw [memoCommit_log]
    exact hl

theorem runComp_countRan_self (env : Env) (c : Nat) (st : St)
    (hroot : ∀ xs, env c ≠ Body.rootB xs) :
    countRan c (runComp env c st).1.log = countRan c st.log + 1 := by
  cases henv : env c with
  | rootB cs => exact absurd henv (hroot cs)
  | effB cs =>
    rw [runComp_log_eff env c st henv, countRan_append, countRan_append,
      countRan_cleanDone, countRan_ran]
    simp
  | memB e =>
    rw [runComp_log_mem env c st henv, countRan_append, countRan_append,
      countRan_cleanDone, countRan_ran]
    simp

theorem runComp_countRan_ne (env : Env) (c c2 : Nat) (st : St)
    (h : c2 ≠ c) :
    countRan c2 (runComp env c st).1.log = countRan c2 st.log := by
  cases henv : env c with
  | rootB cs => rw [runComp_root_eq env c st henv]
  | effB cs =>
    rw [runComp_log_eff env c st henv, countRan_append, countRan_append,
      countRan_cleanDone, countRan_ran, if_neg h]
    simp
  | memB e =>
    rw [runComp_log_mem env c st henv, countRan_append, countRan_append,
      countRan_cleanDone, countRan_ran, if_neg h]
    simp

/-! ## Run characterization: dependency rebuild -/

theorem subsOf_swapIn (src : Src) (c : Nat) (st : St) :
    subsOf src (swapIn c st) = subsOf src st := by
  cases src <;> rfl

theorem subsOf_restore (src : Src) (p : Option Nat) (st : St) :
    subsOf src { st with current := p } = subsOf src st := by
  cases src <;> rfl

theorem teardownComp_subsNodup (c : Nat) (st : St)
    (hnd : ∀ src2, (subsOf src2 st).Nodup) (src2 : Src) :
    (subsOf src2 (teardownComp c st)).Nodup := by
  rw [teardownComp_eq]
  have h3 : ∀ st2 : St, subsOf src2
      (updComp c (fun k => { k with deps := ([] : List Src) }) st2) =
        subsOf src2 st2 := by
    intro st2
    cases src2 with
    | sig s => rfl
    | mem m => simp only [subsOf, updComp] ; split_ifs <;> rfl
  rw [h3]
  refine tdFold_subsNodup _ _ _ ?_ src2
  intro src3
  have h2 : subsOf src3
      (updComp c (fun k => { k with cleanups := ([] : List Nat) })
        { st with log := st.log ++ (st.comps c).cleanups.map Ev.cleanDone }) =
      subsOf src3 st := by
    cases src3 with
    | sig s => rfl
    | mem m => simp only [subsOf, updComp] ; split_ifs <;> rfl
  rw [h2]
  exact hnd src3

theorem runComp_deps_eff (env : Env) (c : Nat) (st : St) {cs : List Cmd}
    (henv : env c = Body.effB cs) :
    depsOf c (runComp env c st).1 =
      List.foldl addUnique [] (runComp env c st).2.2 := by
  rw [runComp_eff_eq env c st henv]
  show depsOf c (execCmds cs (swapIn c (teardownComp c st))).1 = _
  rw [execCmds_deps_char _ _ (swapIn_current c (teardownComp c st))]
  congr 1
  show depsOf c (teardownComp c st) = []
  exact teardownComp_deps_self c st

theorem runComp_deps_mem (env : Env) (c : Nat) (st : St) {e : MExpr}
    (henv : env c = Body.memB e) :
    depsOf c (runComp env c st).1 =
      List.foldl addUnique [] (runComp env c st).2.2 := by
  unfold runComp
  rw [henv]
  dsimp only
  have hch : depsOf c (evalM e (swapIn c (teardownComp c st))).1 =
      List.foldl addUnique []
        (evalM e (swapIn c (teardownComp c st))).2.2 := by
    rw [evalM_deps_char _ _ (swapIn_current c (teardownComp c st))]
    congr 1
    show depsOf c (teardownComp c st) = []
    exact teardownComp_deps_self c st
  split
  · exact hch
  · next v hv =>
    exact (memoCommit_deps c v
      (evalM e (swapIn c (teardownComp c st))).1 c).trans hch

theorem runComp_deps_char (env : Env) (c : Nat) (st : St)
    (hroot : ∀ xs, env c ≠ Body.rootB xs) :
    depsOf c (runComp env c st).1 =
      List.foldl addUnique [] (runComp env c st).2.2 := by
  cases henv : env c with
  | rootB xs => exact absurd henv (hroot xs)
  | effB cs => exact runComp_deps_eff env c st henv
  | memB e => exact runComp_deps_mem env c st henv

theorem runComp_subs_iff_eff (env : Env) (c : Nat) (st : St) {cs : List Cmd}
    (henv : env c = Body.effB cs)
    (hnd : ∀ src2, (subsOf src2 st).Nodup) (hinv : EdgeInv c st)
    (src : Src) :
    (c ∈ subsOf src (runComp env c st).1 ↔
      src ∈ (runComp env c st).2.2) := by
  rw [runComp_eff_eq env c st henv]
  show c ∈ subsOf src { (execCmds cs (swapIn c (teardownComp c st))).1 with
      current := (teardownComp c st).current } ↔ _
  rw [subsOf_restore]
  rw [execCmds_subs_char _ _ (swapIn_current c (teardownComp c st)) src]
  rw [subsOf_swapIn]
  have hnone := teardownComp_subs_none c st hnd hinv src
  simp [hnone]

/-! ## Creation lemmas -/

theorem initComp_self (c : Nat) (st : St) :
    (initComp c st).comps c = CompSt.init := by
  unfold initComp
  simp [updComp]

theorem initComp_current (c : Nat) (st : St) :
    (initComp c st).current = st.current := rfl

theorem initComp_queue (c : Nat) (st : St) :
    (initComp c st).queue = st.queue := rfl

theorem initComp_log (c : Nat) (st : St) :
    (initComp c st).log = st.log := rfl

theorem initComp_sigs (c : Nat) (st : St) :
    (initComp c st).sigs = st.sigs := rfl

theorem createEffect_eq (env : Env) (c : Nat) (st : St) :
    createEffect env c st =
      ((runComp env c (initComp c st)).1,
        (runComp env c (initComp c st)).2.1) := rfl

theorem createMemo_eq (env : Env) (m : Nat) (st : St) :
    createMemo env m st =
      ((runComp env m (initComp m st)).1,
        (runComp env m (initComp m st)).2.1) := rfl

theorem createEffect_current (env : Env) (c : Nat) (st : St) :
    (createEffect env c st).1.current = st.current := by
  rw [createEffect_eq]
  show (runComp env c (initComp c st)).1.current = st.current
  rw [runComp_current, initComp_current]

theorem createMemo_current (env : Env) (m : Nat) (st : St) :
    (createMemo env m st).1.current = st.current := by
  rw [createMemo_eq]
  show (runComp env m (initComp m st)).1.current = st.current
  rw [runComp_current, initComp_current]

theorem createEffect_log_eff (env : Env) (c : Nat) (st : St) {cs : List Cmd}
    (henv : env c = Body.effB cs) :
    (createEffect env c st).1.log = st.log ++ [Ev.ran c] := by
  rw [createEffect_eq]
  show (runComp env c (initComp c st)).1.log = _
  rw [runComp_log_eff env c (initComp c st) henv, initComp_self, initComp_log]
  simp [CompSt.init]

theorem createMemo_log_mem (env : Env) (m : Nat) (st : St) {e : MExpr}
    (henv : env m = Body.memB e) :
    (createMemo env m st).1.log = st.log ++ [Ev.ran m] := by
  rw [createMemo_eq]
  show (runComp env m (initComp m st)).1.log = _
  rw [runComp_log_mem env m (initComp m st) henv, initComp_self, initComp_log]
  simp [CompSt.init]

/-! ## Disposal lemmas -/

theorem dispose_of_disposed (c : Nat) (st : St)
    (h : (st.comps c).disposed = true) : dispose c st = st := by
  unfold dispose
  rw [if_pos h]

theorem dispose_eq_of_live (c : Nat) (st : St)
    (h : (st.comps c).disposed = false) :
    dispose c st =
      { updComp c (fun k => { k with deps := [] })
          ((st.comps c).deps.foldl (fun acc src => removeSub src c acc)
            { updComp c (fun k => { k with disposed := true }) st with
              log := (updComp c (fun k => { k with disposed := true }) st).log
                ++ (st.comps c).cleanups.map Ev.cleanDone }) with
        queue := (updComp c (fun k => { k with deps := [] })
          ((st.comps c).deps.foldl (fun acc src => removeSub src c acc)
            { updComp c (fun k => { k with disposed := true }) st with
              log := (updComp c (fun k => { k with disposed := true }) st).log
                ++ (st.comps c).cleanups.map Ev.cleanDone })).queue.erase c } := by
  unfold dispose
  rw [if_neg (by simp [h])]

theorem dispose_disposed (c : Nat) (st : St) :
    ((dispose c st).comps c).disposed = true := by
  by_cases h : (st.comps c).disposed = true
  · rw [dispose_of_disposed c st h]
    exact h
  · rw [dispose_eq_of_live c st (by simpa using h)]
    dsimp only
    rw [show ∀ st2 : St, ((updComp c (fun k =>
        { k with deps := ([] : List Src) }) st2).comps c).disposed =
        ((st2).comps c).disposed from fun st2 => by simp [updComp]]
    rw [(tdFold_flags _ _ _ c).1]
    show ((updComp c (fun k => { k with disposed := true }) st).comps
      c).disposed = true
    simp [updComp]

theorem dispose_idem (c : Nat) (st : St) :
    dispose c (dispose c st) = dispose c st :=
  dispose_of_disposed c (dispose c st) (dispose_disposed c st)

theorem dispose_log_of_live (c : Nat) (st : St)
    (h : (st.comps c).disposed = false) :
    (dispose c st).log = st.log ++ (st.comps c).cleanups.map Ev.cleanDone := by
  rw [dispose_eq_of_live c st h]
  dsimp only
  rw [updComp_log, tdFold_log]
  show (updComp c (fun k => { k with disposed := true }) st).log ++ _ = _
  rw [updComp_log]

theorem dispose_deps_self (c : Nat) (st : St)
    (h : (st.comps c).disposed = false) :
    depsOf c (dispose c st) = [] := by
  rw [dispose_eq_of_live c st h]
  dsimp only
  simp [depsOf, updComp]

theorem dispose_queue_of_live (c : Nat) (st : St)
    (h : (st.comps c).disposed = false) :
    (dispose c st).queue = st.queue.erase c := by
  rw [dispose_eq_of_live c st h]
  dsimp only
  rw [updComp_queue, tdFold_queue]
  show (updComp c (fun k => { k with disposed := true }) st).queue.erase c = _
  rw [updComp_queue]

theorem dispose_not_queued (c : Nat) (st : St)
    (h : (st.comps c).disposed = false) (hq : st.queue.Nodup) :
    c ∉ (dispose c st).queue := by
  rw [dispose_queue_of_live c st h]
  exact hq.not_mem_erase

theorem dispose_subs_none (c : Nat) (st : St)
    (h : (st.comps c).disposed = false)
    (hnd : ∀ src2, (subsOf src2 st).Nodup) (hinv : EdgeInv c st)
    (src : Src) : c ∉ subsOf src (dispose c st) := by
  rw [dispose_eq_of_live c st h]
  have hsubs_base : ∀ src3, subsOf src3
      ({ updComp c (fun k => { k with disposed := true }) st with
        log := (updComp c (fun k => { k with disposed := true }) st).log
          ++ (st.comps c).cleanups.map Ev.cleanDone }) = subsOf src3 st := by
    intro src3
    cases src3 with
    | sig s => rfl
    | mem m =>
      show ((updComp c (fun k => { k with disposed := true }) st).comps
        m).msubs = ((st.comps m)).msubs
      simp only [updComp]
      split_ifs <;> rfl
  have hstep : ∀ st2 : St, subsOf src
      ({ updComp c (fun k => { k with deps := ([] : List Src) }) st2 with
        queue := (updComp c (fun k => { k with deps := ([] : List Src) })
          st2).queue.erase c }) = subsOf src st2 := by
    intro st2
    cases src with
    | sig s => rfl
    | mem m =>
      show ((updComp c (fun k => { k with deps := ([] : List Src) }) st2).comps
        m).msubs = ((st2.comps m)).msubs
      simp only [updComp]
      split_ifs <;> rfl
  intro hmem
  rw [hstep] at hmem
  by_cases hd : src ∈ (st.comps c).deps
  · refine tdFold_removed _ c _ ?_ hd hmem
    intro src3
    rw [hsubs_base src3]
    exact hnd src3
  · have : c ∈ subsOf src ({ updComp c
        (fun k => { k with disposed := true }) st with
        log := (updComp c (fun k => { k with disposed := true }) st).log
          ++ (st.comps c).cleanups.map Ev.cleanDone }) :=
      tdFold_subs_sub _ c _ src hmem
    rw [hsubs_base src] at this
    exact hd (hinv src this)

/-! ## Flush lemmas -/

theorem flushLoop_nil (env : Env) (st : St) : flushLoop env [] st = st := rfl

theorem flushLoop_cons_disposed (env : Env) (c : Nat) (rest : List Nat)
    (st : St) (h : (st.comps c).disposed = true) :
    flushLoop env (c :: rest) st =
      flushLoop env rest { st with queue := st.queue.erase c } := by
  rw [flushLoop]
  rw [if_pos (show (({ st with queue := st.queue.erase c } : St).comps
    c).disposed = true from h)]

theorem flushLoop_cons_running (env : Env) (c : Nat) (rest : List Nat)
    (st : St) (hd : (st.comps c).disposed = false)
    (hr : (st.comps c).running = true) :
    flushLoop env (c :: rest) st =
      flushLoop env rest { st with
        queue := st.queue.erase c
        log := st.log ++ [Ev.cycle c] } := by
  rw [flushLoop]
  rw [if_neg (show ¬ (({ st with queue := st.queue.erase c } : St).comps
    c).disposed = true by simp [hd])]
  rw [if_pos (show (({ st with queue := st.queue.erase c } : St).comps
    c).running = true from hr)]

theorem flushLoop_cons_run (env : Env) (c : Nat) (rest : List Nat)
    (st : St) (hd : (st.comps c).disposed = false)
    (hr : (st.comps c).running = false) :
    flushLoop env (c :: rest) st =
      flushLoop env rest
        (updComp c (fun k => { k with running := false })
          (if (runComp env c (updComp c (fun k => { k with running := true })
              { st with queue := st.queue.erase c })).2.1 then
            (runComp env c (updComp c (fun k => { k with running := true })
              { st with queue := st.queue.erase c })).1
          else
            { (runComp env c (updComp c (fun k => { k with running := true })
                { st with queue := st.queue.erase c })).1 with
              log := (runComp env c (updComp c
                (fun k => { k with running := true })
                { st with queue := st.queue.erase c })).1.log
                ++ [Ev.errCaught c] })) := by
  rw [flushLoop]
  rw [if_neg (show ¬ (({ st with queue := st.queue.erase c } : St).comps
    c).disposed = true by simp [hd])]
  rw [if_neg (show ¬ (({ st with queue := st.queue.erase c } : St).comps
    c).running = true by simp [hr])]

theorem flushStep_flags (env : Env) (a : Nat) (st : St) (i : Nat)
    (hr : (st.comps a).running = false) :
    ((updComp a (fun k => { k with running := false })
        (if (runComp env a (updComp a (fun k => { k with running := true })
            { st with queue := st.queue.erase a })).2.1 then
          (runComp env a (updComp a (fun k => { k with running := true })
            { st with queue := st.queue.erase a })).1
        else
          { (runComp env a (updComp a (fun k => { k with running := true })
              { st with queue := st.queue.erase a })).1 with
            log := (runComp env a (updComp a
              (fun k => { k with running := true })
              { st with queue := st.queue.erase a })).1.log
              ++ [Ev.errCaught a] })).comps i).disposed =
      (st.comps i).disposed ∧
    ((updComp a (fun k => { k with running := false })
        (if (runComp env a (updComp a (fun k => { k with running := true })
            { st with queue := st.queue.erase a })).2.1 then
          (runComp env a (updComp a (fun k => { k with running := true })
            { st with queue := st.queue.erase a })).1
        else
          { (runComp env a (updComp a (fun k => { k with running := true })
              { st with queue := st.queue.erase a })).1 with
            log := (runComp env a (updComp a
              (fun k => { k with running := true })
              { st with queue := st.queue.erase a })).1.log
              ++ [Ev.errCaught a] })).comps i).running =
      (st.comps i).running := by
  have hrun := runComp_flags env a (updComp a
    (fun k => { k with running := true }) { st with queue := st.queue.erase a }) i
  have hinner_d : (((updComp a (fun k => { k with running := true })
      { st with queue := st.queue.erase a }).comps i)).disposed =
      (st.comps i).disposed := by
    simp only [updComp]
    split_ifs <;> rfl
  have hif_d : ((if (runComp env a (updComp a
      (fun k => { k with running := true })
      { st with queue := st.queue.erase a })).2.1 then
        (runComp env a (updComp a (fun k => { k with running := true })
          { st with queue := st.queue.erase a })).1
      else
        { (runComp env a (updComp a (fun k => { k with running := true })
            { st with queue := st.queue.erase a })).1 with
          log := (runComp env a (updComp a
            (fun k => { k with running := true })
            { st with queue := st.queue.erase a })).1.log
            ++ [Ev.errCaught a] }).comps i) =
      ((runComp env a (updComp a (fun k => { k with running := true })
        { st with queue := st.queue.erase a })).1.comps i) := by
    split <;> rfl
  by_cases hia : i = a
  · subst hia
    refine ⟨?_, ?_⟩
    · rw [show ∀ st2 : St, ((updComp i (fun k =>
          { k with running := false }) st2).comps i).disposed =
          (st2.comps i).disposed from fun st2 => by simp [updComp]]
      rw [hif_d, hrun.1, hinner_d]
    · rw [show ∀ st2 : St, ((updComp i (fun k =>
          { k with running := false }) st2).comps i).running = false
        from fun st2 => by simp [updComp]]
      exact hr.symm
  · refine ⟨?_, ?_⟩
    · rw [show ∀ st2 : St, ((updComp a (fun k =>
          { k with running := false }) st2).comps i).disposed =
          (st2.comps i).disposed from fun st2 => by simp [updComp, hia]]
      rw [hif_d, hrun.1, hinner_d]
    · rw [show ∀ st2 : St, ((updComp a (fun k =>
          { k with running := false }) st2).comps i).running =
          (st2.comps i).running from fun st2 => by simp [updComp, hia]]
      rw [hif_d, hrun.2]
      simp [updComp, hia]

theorem flushStep_countRan_self (env : Env) (a : Nat) (st : St)
    (hroot : ∀ xs, env a ≠ Body.rootB xs) :
    countRan a ((updComp a (fun k => { k with running := false })
        (if (runComp env a (updComp a (fun k => { k with running := true })
            { st with queue := st.queue.erase a })).2.1 then
          (runComp env a (updComp a (fun k => { k with running := true })
            { st with queue := st.queue.erase a })).1
        else
          { (runComp env a (updComp a (fun k => { k with running := true })
              { st with queue := st.queue.erase a })).1 with
            log := (runComp env a (updComp a
              (fun k => { k with running := true })
              { st with queue := st.queue.erase a })).1.log
              ++ [Ev.errCaught a] })).log) = countRan a st.log + 1 := by
  rw [updComp_log]
  have hbase := runComp_countRan_self env a (updComp a
    (fun k => { k with running := true })
    { st with queue := st.queue.erase a }) hroot
  rw [updComp_log] at hbase
  split
  · exact hbase
  · show countRan a (_ ++ [Ev.errCaught a]) = _
    rw [countRan_append, countRan_errCaught, Nat.add_zero]
    exact hbase

theorem flushStep_countRan_ne (env : Env) (a c2 : Nat) (st : St)
    (h : c2 ≠ a) :
    countRan c2 ((updComp a (fun k => { k with running := false })
        (if (runComp env a (updComp a (fun k => { k with running := true })
            { st with queue := st.queue.erase a })).2.1 then
          (runComp env a (updComp a (fun k => { k with running := true })
            { st with queue := st.queue.erase a })).1
        else
          { (runComp env a (updComp a (fun k => { k with running := true })
              { st with queue := st.queue.erase a })).1 with
            log := (runComp env a (updComp a
              (fun k => { k with running := true })
              { st with queue := st.queue.erase a })).1.log
              ++ [Ev.errCaught a] })).log) = countRan c2 st.log := by
  rw [updComp_log]
  have hbase := runComp_countRan_ne env a c2 (updComp a
    (fun k => { k with running := true })
    { st with queue := st.queue.erase a }) h
  rw [updComp_log] at hbase
  split
  · exact hbase
  · show countRan c2 (_ ++ [Ev.errCaught a]) = _
    rw [countRan_append, countRan_errCaught, Nat.add_zero]
    exact hbase

theorem flushStep_Pinv (env : Env) (a : Nat) (st : St) (h : Pinv st) :
    Pinv (updComp a (fun k => { k with running := false })
        (if (runComp env a (updComp a (fun k => { k with running := true })
            { st with queue := st.queue.erase a })).2.1 then
          (runComp env a (updComp a (fun k => { k with running := true })
            { st with queue := st.queue.erase a })).1
        else
          { (runComp env a (updComp a (fun k => { k with running := true })
              { st with queue := st.queue.erase a })).1 with
            log := (runComp env a (updComp a
              (fun k => { k with running := true })
              { st with queue := st.queue.erase a })).1.log
              ++ [Ev.errCaught a] })) := by
  have h0 : Pinv (updComp a (fun k => { k with running := true })
      { st with queue := st.queue.erase a }) := h
  have h1 := runComp_Pinv env a _ h0
  unfold Pinv at *
  rw [updComp_isBatching, updComp_scheduled]
  split
  · exact h1
  · exact h1

theorem flushStep_queue_nodup (env : Env) (a : Nat) (st : St)
    (h : st.queue.Nodup) :
    (updComp a (fun k => { k with running := false })
        (if (runComp env a (updComp a (fun k => { k with running := true })
            { st with queue := st.queue.erase a })).2.1 then
          (runComp env a (updComp a (fun k => { k with running := true })
            { st with queue := st.queue.erase a })).1
        else
          { (runComp env a (updComp a (fun k => { k with running := true })
              { st with queue := st.queue.erase a })).1 with
            log := (runComp env a (updComp a
              (fun k => { k with running := true })
              { st with queue := st.queue.erase a })).1.log
              ++ [Ev.errCaught a] })).queue.Nodup := by
  rw [updComp_queue]
  have h0 : (updComp a (fun k => { k with running := true })
      { st with queue := st.queue.erase a }).queue.Nodup := by
    rw [updComp_queue]
    exact h.erase a
  have h1 := runComp_queue_nodup env a _ h0
  split
  · exact h1
  · exact h1

theorem flushLoop_flags (env : Env) (snap : List Nat) (st : St) (i : Nat) :
    ((flushLoop env snap st).comps i).disposed = (st.comps i).disposed ∧
      ((flushLoop env snap st).comps i).running = (st.comps i).running := by
  induction snap generalizing st with
  | nil => exact ⟨rfl, rfl⟩
  | cons a rest ih =>
    by_cases hd : (st.comps a).disposed = true
    · rw [flushLoop_cons_disposed env a rest st hd]
      exact ih _
    · by_cases hr : (st.comps a).running = true
      · rw [flushLoop_cons_running env a rest st (by simpa using hd) hr]
        exact ih _
      · rw [flushLoop_cons_run env a rest st (by simpa using hd)
          (by simpa using hr)]
        have hstep := flushStep_flags env a st i (by simpa using hr)
        exact ⟨(ih _).1.trans hstep.1, (ih _).2.trans hstep.2⟩

theorem flushLoop_countRan_notin (env : Env) (snap : List Nat) (st : St)
    {c : Nat} (h : c ∉ snap) :
    countRan c (flushLoop env snap st).log = countRan c st.log := by
  induction snap generalizing st with
  | nil => rfl
  | cons a rest ih =>
    have hac : c ≠ a := fun e => h (e ▸ List.mem_cons_self a rest)
    have hrest : c ∉ rest := fun e => h (List.mem_cons_of_mem a e)
    by_cases hd : (st.comps a).disposed = true
    · rw [flushLoop_cons_disposed env a rest st hd]
      exact ih _ hrest
    · by_cases hr : (st.comps a).running = true
      · rw [flushLoop_cons_running env a rest st (by simpa using hd) hr]
        exact (ih { st with
            queue := st.queue.erase a
            log := st.log ++ [Ev.cycle a] } hrest).trans (by
          show countRan c (st.log ++ [Ev.cycle a]) = countRan c st.log
          rw [countRan_append, countRan_cycle, Nat.add_zero])
      · rw [flushLoop_cons_run env a rest st (by simpa using hd)
          (by simpa using hr)]
        exact (ih _ hrest).trans (flushStep_countRan_ne env a c st hac)

theorem flushLoop_countRan_run (env : Env) (snap : List Nat) (st : St)
    {c : Nat} (hnd : snap.Nodup) (hc : c ∈ snap)
    (hd : (st.comps c).disposed = false) (hr : (st.comps c).running = false)
    (hroot : ∀ xs, env c ≠ Body.rootB xs) :
    countRan c (flushLoop env snap st).log = countRan c st.log + 1 := by
  induction snap generalizing st with
  | nil => cases hc
  | cons a rest ih =>
    rcases List.mem_cons.mp hc with heq | hcr
    · cases heq
      rw [flushLoop_cons_run env c rest st hd hr]
      have hnotin : c ∉ rest := (List.nodup_cons.mp hnd).1
      exact (flushLoop_countRan_notin env rest _ hnotin).trans
        (flushStep_countRan_self env c st hroot)
    · have hac : c ≠ a := by
        rintro rfl
        exact (List.nodup_cons.mp hnd).1 hcr
      by_cases hda : (st.comps a).disposed = true
      · rw [flushLoop_cons_disposed env a rest st hda]
        exact ih _ (List.nodup_cons.mp hnd).2 hcr hd hr
      · by_cases hra : (st.comps a).running = true
        · rw [flushLoop_cons_running env a rest st (by simpa using hda) hra]
          exact (ih { st with
              queue := st.queue.erase a
              log := st.log ++ [Ev.cycle a] }
            (List.nodup_cons.mp hnd).2 hcr hd hr).trans (by
            show countRan c (st.log ++ [Ev.cycle a]) + 1 = countRan c st.log + 1
            rw [countRan_append, countRan_cycle, Nat.add_zero])
        · rw [flushLoop_cons_run env a rest st (by simpa using hda)
            (by simpa using hra)]
          have hstep := flushStep_flags env a st c (by simpa using hra)
          exact (ih _ (List.nodup_cons.mp hnd).2 hcr
            (hstep.1.trans hd) (hstep.2.trans hr)).trans
            (congrArg (· + 1) (flushStep_countRan_ne env a c st hac))

theorem flushLoop_countRan_disposed (env : Env) (snap : List Nat) (st : St)
    {c : Nat} (hd : (st.comps c).disposed = true) :
    countRan c (flushLoop env snap st).log = countRan c st.log := by
  induction snap generalizing st with
  | nil => rfl
  | cons a rest ih =>
    by_cases hac : c = a
    · subst hac
      rw [flushLoop_cons_disposed env c rest st hd]
      exact ih _ hd
    · by_cases hda : (st.comps a).disposed = true
      · rw [flushLoop_cons_disposed env a rest st hda]
        exact ih _ hd
      · by_cases hra : (st.comps a).running = true
        · rw [flushLoop_cons_running env a rest st (by simpa using hda) hra]
          exact (ih { st with
              queue := st.queue.erase a
              log := st.log ++ [Ev.cycle a] } hd).trans (by
            show countRan c (st.log ++ [Ev.cycle a]) = countRan c st.log
            rw [countRan_append, countRan_cycle, Nat.add_zero])
        · rw [flushLoop_cons_run env a rest st (by simpa using hda)
            (by simpa using hra)]
          have hstep := flushStep_flags env a st c (by simpa using hra)
          exact (ih _ (hstep.1.trans hd)).trans
            (flushStep_countRan_ne env a c st hac)

theorem flushLoop_Pinv (env : Env) (snap : List Nat) (st : St) (h : Pinv st) :
    Pinv (flushLoop env snap st) := by
  induction snap generalizing st with
  | nil => exact h
  | cons a rest ih =>
    by_cases hd : (st.comps a).disposed = true
    · rw [flushLoop_cons_disposed env a rest st hd]
      exact ih _ h
    · by_cases hr : (st.comps a).running = true
      · rw [flushLoop_cons_running env a rest st (by simpa using hd) hr]
        exact ih _ h
      · rw [flushLoop_cons_run env a rest st (by simpa using hd)
          (by simpa using hr)]
        exact ih _ (flushStep_Pinv env a st h)

theorem flushLoop_queue_nodup (env : Env) (snap : List Nat) (st : St)
    (h : st.queue.Nodup) : (flushLoop env snap st).queue.Nodup := by
  induction snap generalizing st with
  | nil => exact h
  | cons a rest ih =>
    by_cases hd : (st.comps a).disposed = true
    · rw [flushLoop_cons_disposed env a rest st hd]
      exact ih _ (h.erase a)
    · by_cases hr : (st.comps a).running = true
      · rw [flushLoop_cons_running env a rest st (by simpa using hd) hr]
        exact ih _ (h.erase a)
      · rw [flushLoop_cons_run env a rest st (by simpa using hd)
          (by simpa using hr)]
        exact ih _ (flushStep_queue_nodup env a st h)

theorem flush_eq (env : Env) (st : St) :
    flush env st = flushLoop env st.queue
      { st with isBatching := false, scheduled := st.scheduled - 1 } := rfl

theorem flush_Pinv (env : Env) (st : St) (h : Pinv st) :
    Pinv (flush env st) := by
  rw [flush_eq]
  refine flushLoop_Pinv env _ _ ?_
  unfold Pinv at *
  show st.scheduled - 1 = 0
  split at h <;> omega

theorem flush_countRan_run (env : Env) (st : St) {c : Nat}
    (hnd : st.queue.Nodup) (hc : c ∈ st.queue)
    (hd : (st.comps c).disposed = false) (hr : (st.comps c).running = false)
    (hroot : ∀ xs, env c ≠ Body.rootB xs) :
    countRan c (flush env st).log = countRan c st.log + 1 := by
  rw [flush_eq]
  exact flushLoop_countRan_run env st.queue _ hnd hc hd hr hroot

theorem flush_countRan_notin (env : Env) (st : St) {c : Nat}
    (h : c ∉ st.queue) :
    countRan c (flush env st).log = countRan c st.log := by
  rw [flush_eq]
  exact flushLoop_countRan_notin env st.queue _ h

theorem flush_countRan_disposed (env : Env) (st : St) {c : Nat}
    (hd : (st.comps c).disposed = true) :
    countRan c (flush env st).log = countRan c st.log := by
  rw [flush_eq]
  exact flushLoop_countRan_disposed env st.queue _ hd

/-! ## Root lemmas -/

theorem createRoot_current (env : Env) (r : Nat) (st : St) :
    (createRoot env r st).current = st.current := by
  unfold createRoot
  cases henv : env r <;> rfl

/-! ## The self-triggering effect: perpetual re-scheduling -/

theorem loopSt_step (v : Int) (lg : List Ev) :
    flush envSelf (loopSt v lg) = loopSt (v + 1) (lg ++ [Ev.ran 0]) := by
  have hv : ¬ (v + 1 = v) := by omega
  have hv2 : ¬ (v = v + 1) := by omega
  ext1
  case sigs =>
    funext j
    by_cases hj : j = 0 <;>
      simp [flush, flushLoop, loopSt, envSelf, envOf, runComp, teardownComp,
        swapIn, execCmds, execCmd, readSig, writeSig, readMemo, trackRead,
        onCleanup, scheduleUpdate, notifyAll, updComp, updSig, removeSub,
        addUnique, memoCommit, initComp, CompSt.init, List.getD, subsOf,
        depsOf, hv, hv2, hj]
  case comps =>
    funext j
    by_cases hj : j = 0 <;>
      simp [flush, flushLoop, loopSt, envSelf, envOf, runComp, teardownComp,
        swapIn, execCmds, execCmd, readSig, writeSig, readMemo, trackRead,
        onCleanup, scheduleUpdate, notifyAll, updComp, updSig, removeSub,
        addUnique, memoCommit, initComp, CompSt.init, List.getD, subsOf,
        depsOf, hv, hv2, hj]
  all_goals
    simp [flush, flushLoop, loopSt, envSelf, envOf, runComp, teardownComp,
      swapIn, execCmds, execCmd, readSig, writeSig, readMemo, trackRead,
      onCleanup, scheduleUpdate, notifyAll, updComp, updSig, removeSub,
      addUnique, memoCommit, initComp, CompSt.init, List.getD, subsOf,
      depsOf, hv, hv2]

theorem iter_loop (n : Nat) : ∀ (v : Int) (lg : List Ev),
    iterFlush envSelf n (loopSt v lg) =
      loopSt (v + n) (lg ++ List.replicate n (Ev.ran 0)) := by
  induction n with
  | zero =>
    intro v lg
    show loopSt v lg = _
    simp
  | succ n ih =>
    intro v lg
    show iterFlush envSelf n (flush envSelf (loopSt v lg)) = _
    rw [loopSt_step, ih]
    have harith : v + 1 + (n : Int) = v + ((n + 1 : Nat) : Int) := by
      push_cast
      ring
    have hlist : (lg ++ [Ev.ran 0]) ++ List.replicate n (Ev.ran 0) =
        lg ++ List.replicate (n + 1) (Ev.ran 0) := by
      rw [List.append_assoc, List.replicate_succ]
      rfl
    rw [harith, hlist]

theorem createEffect_envSelf :
    (createEffect envSelf 0 initSt).1 = loopSt 1 [Ev.ran 0] ∧
      (createEffect envSelf 0 initSt).2 = true := by
  constructor
  · ext1
    case sigs =>
      funext j
      by_cases hj : j = 0 <;>
        simp [createEffect, runComp, teardownComp, swapIn, execCmds, execCmd,
          readSig, writeSig, readMemo, trackRead, onCleanup, scheduleUpdate,
          notifyAll, updComp, updSig, removeSub, addUnique, memoCommit,
          initComp, CompSt.init, List.getD, subsOf, depsOf, envSelf, envOf,
          initSt, loopSt, hj]
    case comps =>
      funext j
      by_cases hj : j = 0 <;>
        simp [createEffect, runComp, teardownComp, swapIn, execCmds, execCmd,
          readSig, writeSig, readMemo, trackRead, onCleanup, scheduleUpdate,
          notifyAll, updComp, updSig, removeSub, addUnique, memoCommit,
          initComp, CompSt.init, List.getD, subsOf, depsOf, envSelf, envOf,
          initSt, loopSt, hj]
    all_goals
      simp [createEffect, runComp, teardownComp, swapIn, execCmds, execCmd,
        readSig, writeSig, readMemo, trackRead, onCleanup, scheduleUpdate,
        notifyAll, updComp, updSig, removeSub, addUnique, memoCommit,
        initComp, CompSt.init, List.getD, subsOf, depsOf, envSelf, envOf,
        initSt, loopSt]
  · rfl

theorem addUnique_idem {α : Type} [DecidableEq α] (l : List α) (a : α) :
    addUnique (addUnique l a) a = addUnique l a := by
  by_cases h : a ∈ l <;> simp [addUnique, h]

theorem scheduleUpdate_idem (c : Nat) (st : St) :
    scheduleUpdate c (scheduleUpdate c st) = scheduleUpdate c st := by
  by_cases hb : st.isBatching <;> simp [scheduleUpdate, hb, addUnique_idem]

/-! ## Claim theorems -/

/-- C8: the ambient-context register is always restored to its previous value
on exit from every computation run (effect or memo, whether the user function
returns or raises — `runComp` covers both outcomes) and from every
`createRoot` setup call (again even when the setup function raises), so
nested tracked executions compose without corrupting the register. -/
theorem C8_ambient_context_restored :
    (∀ (env : Env) (c : Nat) (st : St),
      (runComp env c st).1.current = st.current) ∧
    (∀ (env : Env) (r : Nat) (st : St),
      (createRoot env r st).current = st.current) ∧
    (∀ (env : Env) (c : Nat) (st : St),
      (createEffect env c st).1.current = st.current) ∧
    (∀ (env : Env) (m : Nat) (st : St),
      (createMemo env m st).1.current = st.current) :=
  ⟨runComp_current, createRoot_current, createEffect_current,
    createMemo_current⟩

/-- C9: `onCleanup(fn)` called while a computation or root is the ambient
context appends the callback to that (nearest enclosing) context's cleanup
list; called with no ambient context it does not throw and performs no state
change other than emitting the diagnostic warning. -/
theorem C9_onCleanup_context :
    (∀ (k : Nat) (st : St) (c : Nat), st.current = some c →
      onCleanup k st =
        updComp c (fun t => { t with cleanups := t.cleanups ++ [k] }) st) ∧
    (∀ (k : Nat) (st : St), st.current = none →
      onCleanup k st = { st with log := st.log ++ [Ev.warnNoCtx] }) :=
  ⟨fun k st c h => onCleanup_of_some k st h,
    fun k st h => onCleanup_of_none k st h⟩

/-- C9 witness: `onCleanup` at a concrete tracked state appends to
computation 0's cleanup list, and at a concrete untracked state only logs
the warning. -/
theorem C9_onCleanup_witness :
    onCleanup 7 { initSt with current := some 0 } =
      updComp 0 (fun t => { t with cleanups := t.cleanups ++ [7] })
        { initSt with current := some 0 } ∧
    onCleanup 7 initSt = { initSt with log := [Ev.warnNoCtx] } :=
  ⟨C9_onCleanup_context.1 7 { initSt with current := some 0 } 0 rfl,
    C9_onCleanup_context.2 7 initSt rfl⟩

/-- C10: a write `signal(v)` performed while a computation is the ambient
context also runs the tracking logic (lines 115-118 run unconditionally after
the setter logic): the writing computation joins the signal's subscriber set,
the signal joins the computation's dependency set, and the call returns the
stored value.  Thus a computation that only ever writes a signal becomes
subscribed to it. -/
theorem C10_tracked_write_subscribes :
    ∀ (s : Nat) (v : Int) (st : St) (c : Nat), st.current = some c →
      c ∈ subsOf (.sig s) (writeSig s v st).1 ∧
      Src.sig s ∈ depsOf c (writeSig s v st).1 ∧
      (writeSig s v st).2 = ((writeSig s v st).1.sigs s).value :=
  fun s v st c h =>
    ⟨writeSig_subs_track s v st h, writeSig_deps_track s v st h,
      (writeSig_val s v st).trans (writeSig_value s v st).symm⟩

/-- C10 witness: computation 0, as the ambient context, writes 7 to
signal 1 (which it never read) and ends up subscribed to it, with the
reverse edge recorded and the stored value returned. -/
theorem C10_tracked_write_witness :
    0 ∈ subsOf (.sig 1) (writeSig 1 7 { initSt with current := some 0 }).1 ∧
    Src.sig 1 ∈ depsOf 0 (writeSig 1 7 { initSt with current := some 0 }).1 ∧
    (writeSig 1 7 { initSt with current := some 0 }).2 =
      ((writeSig 1 7 { initSt with current := some 0 }).1.sigs 1).value :=
  C10_tracked_write_subscribes 1 7 { initSt with current := some 0 } 0 rfl

/-- C4: a write of a value identical (strict equality) to the stored value
skips the setter logic entirely — it is exactly a read: no mutation of the
stored value, no subscriber enqueued, nothing logged.  A write of a
non-identical value stores it and asks the scheduler to enqueue every current
subscriber.  A read with no ambient context returns the value and changes
nothing. -/
theorem C4_signal_write_semantics :
    (∀ (s : Nat) (v : Int) (st : St), v = (st.sigs s).value →
      writeSig s v st = readSig s st) ∧
    (∀ (s : Nat) (v : Int) (st : St), v = (st.sigs s).value →
      (writeSig s v st).1.queue = st.queue ∧
      ((writeSig s v st).1.sigs s).value = (st.sigs s).value ∧
      (writeSig s v st).1.log = st.log) ∧
    (∀ (s : Nat) (v : Int) (st : St), v ≠ (st.sigs s).value →
      ((writeSig s v st).1.sigs s).value = v ∧
      ∀ m ∈ (st.sigs s).subs, m ∈ (writeSig s v st).1.queue) ∧
    (∀ (s : Nat) (st : St), st.current = none →
      readSig s st = (st, (st.sigs s).value)) := by
  refine ⟨fun s v st h => writeSig_eq_read s v st h,
    fun s v st h => ⟨writeSig_queue_of_eq s v st h, ?_, writeSig_log s v st⟩,
    fun s v st h => ⟨writeSig_value s v st, fun m hm =>
      writeSig_queue_of_sub s v st h hm⟩,
    fun s st h => readSig_of_none s st h⟩
  rw [writeSig_value s v st, h]

/-- C4 witness: on the all-zero state, writing 0 to signal 0 equals a plain
read, a read with no ambient context changes nothing, and writing 5 stores 5
while enqueuing the (empty) subscriber set. -/
theorem C4_signal_witness :
    writeSig 0 0 initSt = readSig 0 initSt ∧
    readSig 0 initSt = (initSt, 0) ∧
    ((writeSig 0 5 initSt).1.sigs 0).value = 5 :=
  ⟨C4_signal_write_semantics.1 0 0 initSt (by decide),
    C4_signal_write_semantics.2.2.2 0 initSt rfl,
    (C4_signal_write_semantics.2.2.1 0 5 initSt (by decide)).1⟩

/-- C3: the scheduler queue deduplicates (enqueuing is idempotent and keeps
the queue duplicate-free); at most one flush is pending at any time (the
single-pending-flush invariant `Pinv` bounds the scheduled count by one and
is preserved by writes, enqueues and flushes); a write never runs any
computation synchronously (the log, which records every user-function
invocation, is untouched by a write); and a computation sitting in the queue,
neither disposed nor running, runs exactly once in a flush. -/
theorem C3_scheduler_dedup_single_flush :
    (∀ (c : Nat) (st : St),
      scheduleUpdate c (scheduleUpdate c st) = scheduleUpdate c st) ∧
    (∀ (c : Nat) (st : St), st.queue.Nodup →
      (scheduleUpdate c st).queue.Nodup) ∧
    (∀ st : St, Pinv st → st.scheduled ≤ 1) ∧
    (∀ (c : Nat) (st : St), Pinv st → Pinv (scheduleUpdate c st)) ∧
    (∀ (s : Nat) (v : Int) (st : St), Pinv st → Pinv (writeSig s v st).1) ∧
    (∀ (env : Env) (st : St), Pinv st → Pinv (flush env st)) ∧
    (∀ (s : Nat) (v : Int) (st : St), (writeSig s v st).1.log = st.log) ∧
    (∀ (env : Env) (st : St) (c : Nat), st.queue.Nodup → c ∈ st.queue →
      (st.comps c).disposed = false → (st.comps c).running = false →
      (∀ xs, env c ≠ Body.rootB xs) →
      countRan c (flush env st).log = countRan c st.log + 1) := by
  refine ⟨scheduleUpdate_idem, scheduleUpdate_queue_nodup, ?_,
    scheduleUpdate_Pinv, writeSig_Pinv, flush_Pinv, writeSig_log,
    fun env st c hnd hc hd hr hroot =>
      flush_countRan_run env st hnd hc hd hr hroot⟩
  intro st h
  unfold Pinv at h
  split at h <;> omega

/-- C3 witness: in the self-effect loop state the effect is enqueued once;
the flush invariant holds and one flush runs it exactly once (its run count
goes from 0 to 1), while an equal-value write leaves the log unchanged. -/
theorem C3_scheduler_witness :
    Pinv (loopSt 1 []) ∧
    (loopSt 1 []).scheduled ≤ 1 ∧
    countRan 0 (flush envSelf (loopSt 1 [])).log =
      countRan 0 (loopSt 1 []).log + 1 ∧
    scheduleUpdate 0 (scheduleUpdate 0 initSt) = scheduleUpdate 0 initSt :=
  ⟨by unfold Pinv; decide,
    C3_scheduler_dedup_single_flush.2.2.1 (loopSt 1 [])
      (by unfold Pinv; decide),
    C3_scheduler_dedup_single_flush.2.2.2.2.2.2.2 envSelf (loopSt 1 []) 0
      (by decide) (by decide) (by decide) (by decide)
      (fun xs h => by simp [envSelf, envOf] at h),
    C3_scheduler_dedup_single_flush.1 0 initSt⟩

/-- C6: the disposer is idempotent (a second call is a no-op on the state);
a first call runs all registered cleanups in order, clears the dependency
set and (assuming the bidirectional-edge invariant and duplicate-free
subscriber sets) removes the computation from every subscriber set; it
removes the computation from the pending queue; a disposed computation never
executes during any flush (no run is ever logged for it); and a write to a
former dependency cannot enqueue a computation that is no longer in any
subscriber set. -/
theorem C6_disposer_finality :
    (∀ (c : Nat) (st : St), dispose c (dispose c st) = dispose c st) ∧
    (∀ (c : Nat) (st : St), ((dispose c st).comps c).disposed = true) ∧
    (∀ (c : Nat) (st : St), (st.comps c).disposed = false →
      (dispose c st).log = st.log ++ (st.comps c).cleanups.map Ev.cleanDone ∧
      depsOf c (dispose c st) = []) ∧
    (∀ (c : Nat) (st : St), (st.comps c).disposed = false → st.queue.Nodup →
      c ∉ (dispose c st).queue) ∧
    (∀ (c : Nat) (st : St), (st.comps c).disposed = false →
      (∀ src2, (subsOf src2 st).Nodup) → EdgeInv c st →
      ∀ src, c ∉ subsOf src (dispose c st)) ∧
    (∀ (env : Env) (st : St) (c : Nat), (st.comps c).disposed = true →
      countRan c (flush env st).log = countRan c st.log) ∧
    (∀ (s : Nat) (v : Int) (st : St) (c : Nat),
      c ∉ subsOf (.sig s) st → c ∉ st.queue →
      c ∉ (writeSig s v st).1.queue) := by
  refine ⟨dispose_idem, dispose_disposed,
    fun c st h => ⟨dispose_log_of_live c st h, dispose_deps_self c st h⟩,
    dispose_not_queued, dispose_subs_none,
    fun env st c hd => flush_countRan_disposed env st hd,
    fun s v st c hs hq hmem => ?_⟩
  rcases writeSig_queue_src s v st hmem with h1 | ⟨_, h2⟩
  · exact hq h1
  · exact hs h2

/-- C6 witness: disposing the subscribed, enqueued self-effect of the loop
state is idempotent, marks it disposed, runs its (empty) cleanup list,
empties both sides of its dependency edge, removes it from the queue, and a
subsequent write to its former dependency does not enqueue it. -/
theorem C6_disposer_witness :
    dispose 0 (dispose 0 (loopSt 1 [])) = dispose 0 (loopSt 1 []) ∧
    ((dispose 0 (loopSt 1 [])).comps 0).disposed = true ∧
    depsOf 0 (dispose 0 (loopSt 1 [])) = [] ∧
    0 ∉ (dispose 0 (loopSt 1 [])).queue ∧
    0 ∉ subsOf (.sig 0) (dispose 0 (loopSt 1 [])) ∧
    0 ∉ (writeSig 0 9 (dispose 0 (loopSt 1 []))).1.queue := by
  have hnd : ∀ src2, (subsOf src2 (loopSt 1 [])).Nodup := by
    intro src2
    cases src2 with
    | sig s => by_cases hs : s = 0 <;> simp [subsOf, loopSt, hs]
    | mem m => by_cases hm : m = 0 <;> simp [subsOf, loopSt, CompSt.init, hm]
  have hinv : EdgeInv 0 (loopSt 1 []) := by
    intro src h
    cases src with
    | sig s =>
      by_cases hs : s = 0
      · subst hs
        simp [depsOf, loopSt]
      · simp [subsOf, loopSt, hs] at h
    | mem m =>
      by_cases hm : m = 0 <;> simp [subsOf, loopSt, CompSt.init, hm] at h
  have hsub := C6_disposer_finality.2.2.2.2.1 0 (loopSt 1 []) (by decide)
    hnd hinv
  refine ⟨C6_disposer_finality.1 0 (loopSt 1 []),
    C6_disposer_finality.2.1 0 (loopSt 1 []),
    (C6_disposer_finality.2.2.1 0 (loopSt 1 []) (by decide)).2,
    C6_disposer_finality.2.2.2.1 0 (loopSt 1 []) (by decide) (by decide),
    hsub (.sig 0),
    C6_disposer_finality.2.2.2.2.2.2 0 9 (dispose 0 (loopSt 1 [])) 0
      (hsub (.sig 0)) ?_⟩
  exact C6_disposer_finality.2.2.2.1 0 (loopSt 1 []) (by decide) (by decide)

/-- C7: a memo runs its computation eagerly exactly once at creation (the
log gains exactly one invocation); a recomputation whose fresh value is
identical to the cache leaves the state untouched (no cache update, no
notification), while a changed value updates the cache and enqueues every
subscriber of the memo's own subscriber set; the returned getter always
returns the cached value without running anything, records no edge when
untracked, and when a computation is the ambient context records the same
bidirectional edge as a signal read; and an identical-value write to an
upstream signal enqueues nothing, so the memo re-runs only when a dependency
actually changes. -/
theorem C7_memo_caching :
    (∀ (env : Env) (m : Nat) (st : St) (e : MExpr), env m = Body.memB e →
      (createMemo env m st).1.log = st.log ++ [Ev.ran m]) ∧
    (∀ (m : Nat) (v : Int) (st : St), (st.comps m).minit = true →
      v = (st.comps m).mval → memoCommit m v st = st) ∧
    (∀ (m : Nat) (v : Int) (st : St), v ≠ (st.comps m).mval →
      ((memoCommit m v st).comps m).mval = v ∧
      ((memoCommit m v st).comps m).minit = true ∧
      ∀ x ∈ (st.comps m).msubs, x ∈ (memoCommit m v st).queue) ∧
    (∀ (m : Nat) (st : St), (readMemo m st).2 = (st.comps m).mval ∧
      (readMemo m st).1.log = st.log) ∧
    (∀ (m : Nat) (st : St), st.current = none →
      readMemo m st = (st, (st.comps m).mval)) ∧
    (∀ (m : Nat) (st : St) (c : Nat), st.current = some c →
      c ∈ subsOf (.mem m) (readMemo m st).1 ∧
      Src.mem m ∈ depsOf c (readMemo m st).1) ∧
    (∀ (s : Nat) (v : Int) (st : St), v = (st.sigs s).value →
      (writeSig s v st).1.queue = st.queue) :=
  ⟨fun env m st e henv => createMemo_log_mem env m st henv,
    memoCommit_of_same,
    fun m v st h =>
      ⟨(memoCommit_mval_of_change m v st (Or.inr h)).1,
        (memoCommit_mval_of_change m v st (Or.inr h)).2,
        fun x hx => memoCommit_queue_of_change m v st (Or.inr h) hx⟩,
    fun m st => ⟨readMemo_val m st, readMemo_log m st⟩,
    fun m st h => readMemo_of_none m st h,
    fun m st c h => ⟨readMemo_subs_track m st h, readMemo_deps_track m st h⟩,
    writeSig_queue_of_eq⟩

/-- C7 witness: creating the memo of `envMemo` logs exactly its one eager
run; committing its cached value back is a no-op while committing 5 updates
the cache; its getter returns the cache untracked without touching the
state, and records the bidirectional edge when effect 0 is ambient. -/
theorem C7_memo_witness :
    (createMemo envMemo 1 initSt).1.log = [Ev.ran 1] ∧
    memoCommit 1 0 (createMemo envMemo 1 initSt).1 =
      (createMemo envMemo 1 initSt).1 ∧
    ((memoCommit 1 5 (createMemo envMemo 1 initSt).1).comps 1).mval = 5 ∧
    readMemo 1 initSt = (initSt, 0) ∧
    0 ∈ subsOf (.mem 1) (readMemo 1 { initSt with current := some 0 }).1 :=
  ⟨C7_memo_caching.1 envMemo 1 initSt (MExpr.readS 0) rfl,
    C7_memo_caching.2.1 1 0 (createMemo envMemo 1 initSt).1
      (by decide) (by decide),
    (C7_memo_caching.2.2.1 1 5 (createMemo envMemo 1 initSt).1 (by decide)).1,
    C7_memo_caching.2.2.2.2.1 1 initSt rfl,
    (C7_memo_caching.2.2.2.2.2.1 1 { initSt with current := some 0 } 0
      rfl).1⟩

/-- C5: a re-run of an effect first executes all cleanups registered during
the previous run, in registration order, and only then marks the invocation
of the body (the log equation); the teardown phase leaves the cleanup list
and the dependency set empty before the body executes (the structural
equation shows the body runs on the torn-down state); after any run —
completed or failed — the dependency set is exactly the deduplicated trace
of sources read during that run; and, assuming duplicate-free subscriber
sets and the bidirectional-edge invariant beforehand, the subscriber sets
afterwards agree exactly with the rebuilt dependency set: no stale edge
survives. -/
theorem C5_rerun_teardown_rebuild :
    ∀ (env : Env) (c : Nat) (st : St) (cs : List Cmd),
      env c = Body.effB cs →
      ((runComp env c st).1.log =
        st.log ++ (st.comps c).cleanups.map Ev.cleanDone ++ [Ev.ran c]) ∧
      (((teardownComp c st).comps c).cleanups = [] ∧
        depsOf c (teardownComp c st) = []) ∧
      (runComp env c st =
        ({ (execCmds cs (swapIn c (teardownComp c st))).1 with
            current := (teardownComp c st).current },
          (execCmds cs (swapIn c (teardownComp c st))).2.1,
          (execCmds cs (swapIn c (teardownComp c st))).2.2)) ∧
      (depsOf c (runComp env c st).1 =
        List.foldl addUnique [] (runComp env c st).2.2) ∧
      ((∀ src2, (subsOf src2 st).Nodup) → EdgeInv c st →
        ∀ src, (c ∈ subsOf src (runComp env c st).1 ↔
          src ∈ depsOf c (runComp env c st).1)) := by
  intro env c st cs henv
  refine ⟨runComp_log_eff env c st henv,
    ⟨teardownComp_cleanups_self c st, teardownComp_deps_self c st⟩,
    runComp_eff_eq env c st henv,
    runComp_deps_eff env c st henv,
    fun hnd hinv src => ?_⟩
  rw [runComp_subs_iff_eff env c st henv hnd hinv src,
    runComp_deps_eff env c st henv, mem_foldl_addUnique]
  simp

/-- C5 witness: the branch effect of `envBranch`, run on the all-zero state,
takes the `else` branch, and its rebuilt dependency set is exactly the trace
`[signal 0, signal 2]`; the edge to the untaken branch's signal 1 exists on
neither side. -/
theorem C5_rerun_witness :
    depsOf 0 (runComp envBranch 0 initSt).1 = [Src.sig 0, Src.sig 2] ∧
    (0 ∈ subsOf (.sig 2) (runComp envBranch 0 initSt).1 ↔
      Src.sig 2 ∈ depsOf 0 (runComp envBranch 0 initSt).1) ∧
    (0 ∈ subsOf (.sig 1) (runComp envBranch 0 initSt).1 ↔
      Src.sig 1 ∈ depsOf 0 (runComp envBranch 0 initSt).1) := by
  have hnd : ∀ src2, (subsOf src2 initSt).Nodup := by
    intro src2
    cases src2 <;> simp [subsOf, initSt, CompSt.init]
  have hinv : EdgeInv 0 initSt := by
    intro src h
    cases src <;> simp [subsOf, initSt, CompSt.init] at h
  have h5 := C5_rerun_teardown_rebuild envBranch 0 initSt
    [Cmd.iteR 0 (Cmd.read 1) (Cmd.read 2)] rfl
  exact ⟨(h5.2.2.2.1).trans (by decide),
    h5.2.2.2.2 hnd hinv (.sig 2),
    h5.2.2.2.2 hnd hinv (.sig 1)⟩

/-- C1 counterexample: the claim asserts that an exception raised during an
effect's *initial run at creation* is caught at the computation boundary,
logged, and that `createEffect` still returns a usable disposer.  In the
source, the initial run (`effect()` at line 159) is **not** inside any
try/catch — the error boundary exists only in the scheduler flush (lines
61-71).  For the concrete effect of `envThrow`, whose body reads signal 0
and then raises, the success flag of `createEffect` is `false` (the
exception escapes `createEffect` and the caller receives no disposer), and
no caught-error event is ever logged.  The dependency set does hold exactly
the pre-failure edge and the ambient context is restored. -/
theorem C1_initial_run_error_escapes :
    (createEffect envThrow 0 initSt).2 = false ∧
    Ev.errCaught 0 ∉ (createEffect envThrow 0 initSt).1.log ∧
    depsOf 0 (createEffect envThrow 0 initSt).1 = [Src.sig 0] ∧
    (createEffect envThrow 0 initSt).1.current = none := by
  decide

/-- C1 amended: during a scheduler flush re-run, an exception raised by a
computation's function is caught at the per-computation boundary of the
flush loop — the caught error is logged and the loop continues with the
remaining pending computations (first conjunct: the loop step on a failing
computation reduces to the loop on the rest of the snapshot, with
`errCaught` appended); the failing computation's dependency set afterwards
contains exactly the edges recorded before the failure point — for every
computation, effect or memo (second conjunct, which holds for any non-root
body and whether or not the run completed).  An exception
during the *initial run at creation*, however, propagates out of
`createEffect` — no disposer is returned — although the ambient context is
still restored (third conjunct). -/
theorem C1_error_isolation_amended :
    (∀ (env : Env) (c : Nat) (rest : List Nat) (st : St),
      (st.comps c).disposed = false → (st.comps c).running = false →
      (runComp env c (updComp c (fun k => { k with running := true })
        { st with queue := st.queue.erase c })).2.1 = false →
      flushLoop env (c :: rest) st =
        flushLoop env rest
          (updComp c (fun k => { k with running := false })
            { (runComp env c (updComp c (fun k => { k with running := true })
                { st with queue := st.queue.erase c })).1 with
              log := (runComp env c (updComp c
                (fun k => { k with running := true })
                { st with queue := st.queue.erase c })).1.log
                ++ [Ev.errCaught c] })) ∧
    (∀ (env : Env) (c : Nat) (st : St), (∀ xs, env c ≠ Body.rootB xs) →
      depsOf c (runComp env c st).1 =
        List.foldl addUnique [] (runComp env c st).2.2) ∧
    (∀ (env : Env) (c : Nat) (st : St),
      (runComp env c (initComp c st)).2.1 = false →
      (createEffect env c st).2 = false ∧
      (createEffect env c st).1.current = st.current) := by
  refine ⟨fun env c rest st hd hr hfail => ?_,
    fun env c st hroot => runComp_deps_char env c st hroot,
    fun env c st hfail => ⟨hfail, createEffect_current env c st⟩⟩
  rw [flushLoop_cons_run env c rest st hd hr, if_neg (by simp [hfail])]

/-- C1 witness: with the throwing effect of `envThrow` enqueued alone, one
flush step catches the error, logs it and finishes the loop; the failing
memo of `envThrowM` (which reads signal 0 and then raises) ends its run
with exactly the pre-failure edge in its dependency set; and the initial
creation run escapes with the context restored. -/
theorem C1_error_isolation_witness :
    flushLoop envThrow [0] { initSt with queue := [0] } =
      flushLoop envThrow []
        (updComp 0 (fun k => { k with running := false })
          { (runComp envThrow 0 (updComp 0
              (fun k => { k with running := true })
              { { initSt with queue := [0] } with
                queue := ({ initSt with queue := [0] } : St).queue.erase 0 })).1
              with
            log := (runComp envThrow 0 (updComp 0
              (fun k => { k with running := true })
              { { initSt with queue := [0] } with
                queue := ({ initSt with queue := [0] } : St).queue.erase
                  0 })).1.log ++ [Ev.errCaught 0] }) ∧
    depsOf 1 (runComp envThrowM 1 initSt).1 = [Src.sig 0] ∧
    (runComp envThrowM 1 initSt).2.1 = false ∧
    (createEffect envThrow 0 initSt).2 = false ∧
    (createEffect envThrow 0 initSt).1.current = none :=
  ⟨C1_error_isolation_amended.1 envThrow 0 [] { initSt with queue := [0] }
      (by decide) (by decide) (by decide),
    (C1_error_isolation_amended.2.1 envThrowM 1 initSt
      (fun xs h => by simp [envThrowM, envOf] at h)).trans (by decide),
    by decide,
    (C1_error_isolation_amended.2.2 envThrow 0 initSt (by decide)).1,
    (C1_error_isolation_amended.2.2 envThrow 0 initSt (by decide)).2⟩

/-- C2 counterexample: the claim asserts that a self-read-write effect does
not infinite-loop because the scheduler skips, with a logged self-cycle
detection, any computation whose `running` flag is set when due.  For the
concrete effect of `envSelf` — body `s(s() + 1)`, which reads signal 0 and
writes a changed value back — the write re-enqueues the effect and schedules
a *new* microtask flush; by the time that flush fires the `running` flag is
false again, so the guard at line 52 never fires.  After creation plus two
full flushes the effect has run three times, is still enqueued with another
flush pending, and no cycle-detection event was ever logged: it is re-run on
every flush, not skipped. -/
theorem C2_self_write_loops_forever :
    countRan 0 (iterFlush envSelf 2 (createEffect envSelf 0 initSt).1).log
        = 3 ∧
    (iterFlush envSelf 2 (createEffect envSelf 0 initSt).1).queue = [0] ∧
    (iterFlush envSelf 2 (createEffect envSelf 0 initSt).1).scheduled = 1 ∧
    Ev.cycle 0 ∉ (iterFlush envSelf 2 (createEffect envSelf 0 initSt).1).log := by
  decide

/-- C2 amended: the flush loop does skip — with a logged self-cycle
detection, without executing it and without retrying it within that flush —
any computation whose `running` flag is set when it is due (first conjunct:
the loop step reduces to the loop on the rest of the snapshot with only a
`cycle` event appended).  But an effect that writes a signal it also reads
with a *changing* value is re-enqueued into a fresh flush, where its
`running` flag is false again, so the detection never fires and the effect
re-runs once per flush without bound: after the initial run, `n` flushes of
the self-incrementing effect leave the system in the same loop shape with
the value advanced by `n`, the effect still enqueued, one flush still
pending, `n + 1` logged runs and no cycle detection (second and third
conjuncts).  Each individual flush terminates; quiescence is never
reached. -/
theorem C2_cycle_guard_amended :
    (∀ (env : Env) (c : Nat) (rest : List Nat) (st : St),
      (st.comps c).disposed = false → (st.comps c).running = true →
      flushLoop env (c :: rest) st =
        flushLoop env rest { st with
          queue := st.queue.erase c
          log := st.log ++ [Ev.cycle c] }) ∧
    (∀ (v : Int) (lg : List Ev),
      flush envSelf (loopSt v lg) = loopSt (v + 1) (lg ++ [Ev.ran 0])) ∧
    (∀ n : Nat,
      iterFlush envSelf n (loopSt 1 [Ev.ran 0]) =
        loopSt (1 + n) (List.replicate (n + 1) (Ev.ran 0)) ∧
      (iterFlush envSelf n (loopSt 1 [Ev.ran 0])).queue = [0] ∧
      (iterFlush envSelf n (loopSt 1 [Ev.ran 0])).scheduled = 1 ∧
      countRan 0 (iterFlush envSelf n (loopSt 1 [Ev.ran 0])).log = n + 1 ∧
      Ev.cycle 0 ∉ (iterFlush envSelf n (loopSt 1 [Ev.ran 0])).log) := by
  refine ⟨flushLoop_cons_running, loopSt_step, fun n => ?_⟩
  have hiter : iterFlush envSelf n (loopSt 1 [Ev.ran 0]) =
      loopSt (1 + n) (List.replicate (n + 1) (Ev.ran 0)) := by
    rw [iter_loop n 1 [Ev.ran 0], List.replicate_succ]
    rfl
  refine ⟨hiter, by rw [hiter]; rfl, by rw [hiter]; rfl, ?_, ?_⟩
  · rw [hiter]
    show countRan 0 (List.replicate (n + 1) (Ev.ran 0)) = n + 1
    unfold countRan
    simp
  · rw [hiter]
    show Ev.cycle 0 ∉ List.replicate (n + 1) (Ev.ran 0)
    intro h
    have := List.eq_of_mem_replicate h
    cases this

/-- C2 witness: a computation whose `running` flag is set when the flush
reaches it is skipped with a logged detection (instantiated on a concrete
one-element snapshot), and one flush advances the concrete loop state. -/
theorem C2_cycle_guard_witness :
    flushLoop envSelf [0]
        { initSt with
          queue := [0]
          comps := fun j => if j = 0 then
              { CompSt.init with running := true } else CompSt.init } =
      flushLoop envSelf []
        { { initSt with
            queue := [0]
            comps := fun j => if j = 0 then
                { CompSt.init with running := true } else CompSt.init } with
          queue := ({ initSt with
            queue := [0]
            comps := fun j => if j = 0 then
                { CompSt.init with running := true } else CompSt.init } :
              St).queue.erase 0
          log := ({ initSt with
            queue := [0]
            comps := fun j => if j = 0 then
                { CompSt.init with running := true } else CompSt.init } :
              St).log ++ [Ev.cycle 0] } ∧
    flush envSelf (loopSt 1 []) = loopSt 2 [Ev.ran 0] ∧
    countRan 0 (iterFlush envSelf 1 (loopSt 1 [Ev.ran 0])).log = 2 :=
  ⟨C2_cycle_guard_amended.1 envSelf 0 []
      { initSt with
        queue := [0]
        comps := fun j => if j = 0 then
            { CompSt.init with running := true } else CompSt.init }
      (by decide) (by decide),
    C2_cycle_guard_amended.2.1 1 [],
    (C2_cycle_guard_amended.2.2 1).2.2.2.1⟩

end Leom
